import Mathlib

/-!
# which.c: a shallow embedding

C strings are lists of characters without their terminator.  Memory that the
program walks through with pointers (the packed path buffer made by
`create_path_items`, the local buffer `new_path` of `try_find`) is a list of
bytes together with offsets into it; a read outside such a list, or through the
null pointer, is undefined behaviour and ends the run with `Outcome.fault`.

Everything the program does to the outside world is recorded as a list of
`Event`s: each `access(path, X_OK)` call, each line written to standard output
and each line written to standard error, in program order.

What the program takes from its environment is a parameter of the functions:
* `PATH_MAX`, the constant of `<limits.h>` (4096 on Linux);
* `fs`, the filesystem: which paths `access(path, X_OK)` accepts;
* `stack`, the indeterminate bytes the local array `new_path` holds when
  `try_find` is entered;
* `heap_before`, the bytes in memory right before the block `malloc` returns,
  `[]` when the byte before the block cannot be read;
* `malloc_ok`, whether `malloc` returns a block.
-/

namespace Which

/-- The string terminator. -/
def NUL : Char := Char.ofNat 0

/-- `WHICH_NONE` of which.c. -/
def WHICH_NONE : Nat := 2

/-- `WHICH_NOT_ALL` of which.c. -/
def WHICH_NOT_ALL : Nat := 1

/-- `_PATH_DEFPATH` as which.c defines it when `<paths.h>` does not. -/
def _PATH_DEFPATH : List Char := "/usr/bin:/bin".toList

/-- The value of `(size_t)-1` on an LP64 system: what `size` holds in `main`
before `create_path_items` has stored into it. -/
def SIZE_MAX : Nat := 2 ^ 64 - 1

/-- How a call ends. `fault` is a read outside addressable memory (undefined
behaviour in C); `outOfFuel` belongs to the model only and is shown never to
happen for the fuel the callers pass. -/
inductive Outcome (α : Type) where
  | ok (a : α)
  | fault
  | outOfFuel
  deriving DecidableEq

/-- What the program does to its environment. -/
inductive Event where
  | access (path : List Char)
  | stdout (text : List Char)
  | stderr (text : List Char)
  deriving DecidableEq

/-! ## The C library functions used -/

/-- The string that starts at the head of `bytes`: everything before the first
NUL, `none` when there is no NUL to stop at. -/
def cstrAux : List Char → Option (List Char)
  | [] => none
  | c :: cs => if c = NUL then some [] else (cstrAux cs).map (c :: ·)

/-- The C string at address `p` of `mem`. -/
def cstr (mem : List Char) (p : Nat) : Option (List Char) :=
  cstrAux (mem.drop p)

/-- `strlen(mem + p)`. -/
def strlen (mem : List Char) (p : Nat) : Option Nat :=
  (cstr mem p).map List.length

/-- Scan of `strchr`: `i` is the address of the head of the list. The outer
`none` is a scan that leaves memory, `some none` is the null pointer. -/
def strchrFrom (c : Char) : List Char → Nat → Option (Option Nat)
  | [], _ => none
  | x :: xs, i =>
    if x = c then some (some i)
    else if x = NUL then some none
    else strchrFrom c xs (i + 1)

/-- `strchr(mem + p, c)`, the result being an address in `mem`. -/
def strchr (mem : List Char) (p : Nat) (c : Char) : Option (Option Nat) :=
  strchrFrom c (mem.drop p) p

/-- `strrchr(s, c)` on a C string given by its characters: the index of the
last `c`, `none` for the null pointer. -/
def strrchr (s : List Char) (c : Char) : Option Nat :=
  match s with
  | [] => none
  | x :: xs =>
    match strrchr xs c with
    | some i => some (i + 1)
    | none => if x = c then some 0 else none

/-- `strncpy(dst, src, n)`: the first `n` bytes of `dst` become `src` cut or
padded with NUL to `n` bytes; the bytes of `dst` from `n` on keep their value. -/
def strncpy (dst src : List Char) (n : Nat) : List Char :=
  (src ++ List.replicate (n - src.length) NUL).take n ++ dst.drop n

/-! ## which.c -/

/-- `create_full_path`: the string that `snprintf` leaves in `path`. `dir` is an
address in `mem`. The byte compared with `'/'` is `dir[strlen(dir) - 1]`, the
index being computed in `size_t`: for an empty `dir` it is the byte at address
`dir - 1`. `snprintf` keeps at most `size - 1` characters (`size` is `PATH_MAX`,
at least 1). -/
def create_full_path (size : Nat) (mem : List Char) (dir : Nat) (file : List Char) :
    Option (List Char) :=
  match cstr mem dir with
  | none => none
  | some d =>
    if dir + d.length = 0 then none
    else
      match mem.get? (dir + d.length - 1) with
      | none => none
      | some c =>
        let slash : List Char := if c = '/' then [] else ['/']
        some ((d ++ slash ++ file).take (size - 1))

/-- `try_print`: the result of `access(path, X_OK) == 0` under the filesystem
`fs`, and the events of the call. -/
def try_print (fs : List Char → Bool) (path name : List Char) (prefix_name quiet : Bool) :
    Bool × List Event :=
  let this_success := fs path
  let out : List Event :=
    if this_success && !quiet then
      if prefix_name then [Event.stdout (name ++ [':', ' '] ++ path ++ ['\n'])]
      else [Event.stdout (path ++ ['\n'])]
    else []
  (this_success, Event.access path :: out)

/-- How the `for` loop of `try_find` ends: by its `return true`, or by its
condition becoming false with the value `success` has then. -/
inductive LoopExit where
  | returned (events : List Event)
  | finished (success : Bool) (events : List Event)
  deriving DecidableEq

/-- The `for` loop of `try_find` from the pointer value `path` on, `stop` being
`items + path_size`. -/
def try_find_loop (PATH_MAX : Nat) (fs : List Char → Bool) (mem : List Char)
    (name : List Char) (stop : Nat) (try_all prefix_name quiet : Bool) :
    Nat → Nat → Bool → Outcome LoopExit
  | 0, path, success =>
    if path < stop then Outcome.outOfFuel else Outcome.ok (LoopExit.finished success [])
  | fuel + 1, path, success =>
    if path < stop then
      match create_full_path PATH_MAX mem path name with
      | none => Outcome.fault
      | some new_path =>
        let r := try_print fs new_path name prefix_name quiet
        let success1 := success || r.1
        if success1 && !try_all then Outcome.ok (LoopExit.returned r.2)
        else
          match strlen mem path with
          | none => Outcome.fault
          | some n =>
            match try_find_loop PATH_MAX fs mem name stop try_all prefix_name quiet
                fuel (path + n + 1) success1 with
            | Outcome.ok (LoopExit.returned ev) => Outcome.ok (LoopExit.returned (r.2 ++ ev))
            | Outcome.ok (LoopExit.finished s ev) => Outcome.ok (LoopExit.finished s (r.2 ++ ev))
            | Outcome.fault => Outcome.fault
            | Outcome.outOfFuel => Outcome.outOfFuel
    else Outcome.ok (LoopExit.finished success [])

/-- The header of the `for` loop of `try_find` alone (lines 117 to 119): the
successive values of `path` for which the body is entered, each with the string
found there. -/
def path_iter (mem : List Char) (stop : Nat) : Nat → Nat → Outcome (List (Nat × List Char))
  | 0, path => if path < stop then Outcome.outOfFuel else Outcome.ok []
  | fuel + 1, path =>
    if path < stop then
      match cstr mem path with
      | none => Outcome.fault
      | some d =>
        match path_iter mem stop fuel (path + d.length + 1) with
        | Outcome.ok rest => Outcome.ok ((path, d) :: rest)
        | Outcome.fault => Outcome.fault
        | Outcome.outOfFuel => Outcome.outOfFuel
    else Outcome.ok []

/-- What a call of `try_find` leaves behind: the value returned, the events in
program order, and the bytes of the `name` argument after the call (`try_find`
writes into it when it holds a `'/'`). -/
structure FindResult where
  success : Bool
  events : List Event
  name_after : List Char
  deriving DecidableEq

/-- The line `try_find` writes to standard error when nothing was found. -/
def diagnostic (argv0 name_maybe path_maybe : List Char) : List Char :=
  argv0 ++ [':', ' ', 'n', 'o', ' '] ++ name_maybe ++ [' ', 'i', 'n', ' ', '('] ++ path_maybe
    ++ [')', '\n']

/-- `try_find`. `stack` is what the local array `new_path` holds when the call
starts (`PATH_MAX` bytes of indeterminate value). `items` is `none` for the null
pointer and otherwise an address in `mem`. The loop gets `path_size` as fuel:
every iteration moves `path` forward by at least one byte. -/
def try_find (PATH_MAX : Nat) (fs : List Char → Bool) (argv0 stack mem : List Char)
    (name : List Char) (items : Option Nat) (original_path : List Char) (path_size : Nat)
    (try_all prefix_name quiet : Bool) : Outcome FindResult :=
  if '/' ∈ name then
    let new_path := strncpy stack name (PATH_MAX - 1)
    match strrchr name '/' with
    | none => Outcome.fault
    | some k =>
      let path_maybe := name.take k
      let name_maybe := name.drop (k + 1)
      match cstr new_path 0 with
      | none => Outcome.fault
      | some path =>
        let r := try_print fs path name_maybe prefix_name quiet
        let diag : List Event :=
          if !r.1 && !quiet then [Event.stderr (diagnostic argv0 name_maybe path_maybe)] else []
        Outcome.ok ⟨r.1, r.2 ++ diag, name.set k NUL⟩
  else
    match items with
    | none =>
      -- `path` is the null pointer: the body runs if `path_size` is not 0 and
      -- `create_full_path` calls `strlen` on it
      if path_size = 0 then
        Outcome.ok ⟨false,
          if !quiet then [Event.stderr (diagnostic argv0 name original_path)] else [], name⟩
      else Outcome.fault
    | some base =>
      match try_find_loop PATH_MAX fs mem name (base + path_size) try_all prefix_name quiet
          path_size base false with
      | Outcome.ok (LoopExit.returned ev) => Outcome.ok ⟨true, ev, name⟩
      | Outcome.ok (LoopExit.finished success ev) =>
        let diag : List Event :=
          if !success && !quiet then [Event.stderr (diagnostic argv0 name original_path)] else []
        Outcome.ok ⟨success, ev ++ diag, name⟩
      | Outcome.fault => Outcome.fault
      | Outcome.outOfFuel => Outcome.outOfFuel

/-- The `while` loop of `create_path_items` on the buffer `new_path`, from the
pointer value `colon` on. -/
def create_path_items_loop : Nat → List Char → Nat → Outcome (List Char)
  | 0, _, _ => Outcome.outOfFuel
  | fuel + 1, new_path, colon =>
    match strchr new_path colon ':' with
    | none => Outcome.fault
    | some none => Outcome.ok new_path
    | some (some i) => create_path_items_loop fuel (new_path.set i NUL) (i + 1)

/-- `create_path_items`: `none` is the return value `false` (`malloc` failed,
`*items` and `*size` are left as they were), `some (buffer, size)` is `true`
with the new buffer and the value stored in `*size`. The loop gets the buffer
size as fuel: every iteration consumes one byte at least. -/
def create_path_items (malloc_ok : Bool) (original_path : List Char) :
    Outcome (Option (List Char × Nat)) :=
  let original_path_size := original_path.length
  let new_path_size := original_path_size + 1
  if !malloc_ok then Outcome.ok none
  else
    match create_path_items_loop new_path_size (original_path ++ [NUL]) 0 with
    | Outcome.ok buf => Outcome.ok (some (buf, new_path_size))
    | Outcome.fault => Outcome.fault
    | Outcome.outOfFuel => Outcome.outOfFuel

/-- `usage`: the line written and the status the process exits with. -/
def usage (argv0 : List Char) : Nat × List Event :=
  (WHICH_NONE, [Event.stderr (argv0 ++ " [-aps] [--] PROGRAM [...]\n".toList)])

/-- The counters of `main` with the events so far and the bytes of each
processed argument after its call. -/
structure RunResult where
  errors : Nat
  attempts : Nat
  events : List Event
  args_after : List (List Char)
  deriving DecidableEq

/-- The `for` loop of `main` over the arguments from `argv[i]` on. `stack i` is
what `new_path` holds at the start of the call made for the argument of index
`i`. The counters are `int` in C; `attempts` is at most `argc`, an `int`, so
neither can overflow. -/
def main_loop (PATH_MAX : Nat) (fs : List Char → Bool) (argv0 : List Char)
    (stack : Nat → List Char) (mem : List Char) (items : Option Nat)
    (original_path : List Char) (size : Nat) (try_all prefix_name quiet : Bool) :
    List (List Char) → Nat → Nat → Nat → Outcome RunResult
  | [], _, errors, attempts => Outcome.ok ⟨errors, attempts, [], []⟩
  | arg :: rest, i, errors, attempts =>
    match try_find PATH_MAX fs argv0 (stack i) mem arg items original_path size
        try_all prefix_name quiet with
    | Outcome.ok r =>
      match main_loop PATH_MAX fs argv0 stack mem items original_path size
          try_all prefix_name quiet rest (i + 1)
          (if r.success then errors else errors + 1) (attempts + 1) with
      | Outcome.ok t => Outcome.ok ⟨t.errors, t.attempts, r.events ++ t.events,
          r.name_after :: t.args_after⟩
      | Outcome.fault => Outcome.fault
      | Outcome.outOfFuel => Outcome.outOfFuel
    | Outcome.fault => Outcome.fault
    | Outcome.outOfFuel => Outcome.outOfFuel

/-- The last statement of `main`: the exit status from the two counters. -/
def exit_status (errors attempts : Nat) : Nat :=
  if errors = attempts then WHICH_NONE
  else if errors ≠ 0 then WHICH_NOT_ALL
  else 0

/-- The search-path string `main` uses: `getenv("PATH")`, replaced by
`_PATH_DEFPATH` when it is the null pointer or the empty string. -/
def search_path_string (getenv_PATH : Option (List Char)) : List Char :=
  match getenv_PATH with
  | none => _PATH_DEFPATH
  | some p => if p = [] then _PATH_DEFPATH else p

/-- `main` from the end of option parsing on (line 186 to the end): `args` are
`argv[optind]` to `argv[argc - 1]` and the three flags are as the options left
them. `heap_before` are the bytes that lie in memory right before the block
`malloc` returns. The result is the exit status with the events of the run. -/
def main_resolve (PATH_MAX : Nat) (fs : List Char → Bool) (argv0 : List Char)
    (stack : Nat → List Char) (getenv_PATH : Option (List Char)) (malloc_ok : Bool)
    (heap_before : List Char) (try_all prefix_name quiet : Bool)
    (args : List (List Char)) : Outcome (Nat × List Event) :=
  if args = [] then Outcome.ok (usage argv0)
  else
    let original_path := search_path_string getenv_PATH
    match create_path_items malloc_ok original_path with
    | Outcome.ok created =>
      let run :=
        match created with
        | some (buf, size) =>
          (main_loop PATH_MAX fs argv0 stack (heap_before ++ buf) (some heap_before.length)
            original_path size try_all prefix_name quiet args 0 0 0, ([] : List Event))
        | none =>
          (main_loop PATH_MAX fs argv0 stack heap_before none
            original_path SIZE_MAX try_all prefix_name quiet args 0 0 0,
           [Event.stderr (argv0 ++ ": error allocating path entries\n".toList)])
      match run.1 with
      | Outcome.ok t => Outcome.ok (exit_status t.errors t.attempts, run.2 ++ t.events)
      | Outcome.fault => Outcome.fault
      | Outcome.outOfFuel => Outcome.outOfFuel
    | Outcome.fault => Outcome.fault
    | Outcome.outOfFuel => Outcome.outOfFuel

/-! ## Option parsing -/

/-- How the option loop of `main` (lines 171 to 185) ends: `unknown c` when
`getopt` answers `'?'` for the character `c` (the `default` case calls
`usage`), `parsed` when `getopt` answers -1, with the three flags and the
arguments from `argv[optind]` on. -/
inductive Options where
  | unknown (c : Char)
  | parsed (try_all prefix_name quiet : Bool) (rest : List (List Char))
  deriving DecidableEq

/-- The calls of `getopt(argc, argv, "asp")` for the characters of one option
argument after its `'-'`, each followed by the `switch` of `main`: the flags
after the last character, or the first character that is none of `a`, `p`,
`s`. -/
def getopt_cluster : List Char → Bool → Bool → Bool → Except Char (Bool × Bool × Bool)
  | [], try_all, prefix_name, quiet => Except.ok (try_all, prefix_name, quiet)
  | c :: cs, try_all, prefix_name, quiet =>
    if c = 'a' then getopt_cluster cs true prefix_name quiet
    else if c = 'p' then getopt_cluster cs try_all true quiet
    else if c = 's' then getopt_cluster cs try_all prefix_name true
    else Except.error c

/-- The `while` loop of `main` over `getopt` as POSIX specifies it, on the
arguments after `argv[0]`: an argument that starts with `'-'` and has a second
character is a group of option characters, except `--`, which ends the options
and is skipped; every other argument (also `-` alone) is the first operand and
ends the options. -/
def getopt_loop : List (List Char) → Bool → Bool → Bool → Options
  | [], try_all, prefix_name, quiet => Options.parsed try_all prefix_name quiet []
  | arg :: rest, try_all, prefix_name, quiet =>
    match arg with
    | '-' :: c :: cs =>
      if c = '-' ∧ cs = [] then Options.parsed try_all prefix_name quiet rest
      else
        match getopt_cluster (c :: cs) try_all prefix_name quiet with
        | Except.error bad => Options.unknown bad
        | Except.ok (ta, pn, q) => getopt_loop rest ta pn q
    | _ => Options.parsed try_all prefix_name quiet (arg :: rest)

/-- `main`, for `argv[0] = argv0` and the further arguments `args`.
`getopt_message c` is the line `getopt` itself writes to standard error for the
option character `c` it does not know (its wording is the C library's). -/
def main (PATH_MAX : Nat) (fs : List Char → Bool) (stack : Nat → List Char)
    (getenv_PATH : Option (List Char)) (malloc_ok : Bool) (heap_before : List Char)
    (getopt_message : Char → List Char) (argv0 : List Char) (args : List (List Char)) :
    Outcome (Nat × List Event) :=
  match getopt_loop args false false false with
  | Options.unknown c =>
    Outcome.ok ((usage argv0).1, Event.stderr (getopt_message c) :: (usage argv0).2)
  | Options.parsed try_all prefix_name quiet rest =>
    main_resolve PATH_MAX fs argv0 stack getenv_PATH malloc_ok heap_before
      try_all prefix_name quiet rest

/-- The argument is one `getopt` reads option characters from: it starts with
`'-'`, has a second character and is not `--`. -/
def is_option (arg : List Char) : Bool :=
  match arg with
  | '-' :: c :: cs => !(c == '-' && cs.isEmpty)
  | _ => false

/-- The argument is an option argument all of whose characters are among the
flags `a`, `p`, `s`. -/
def recognized (arg : List Char) : Bool :=
  is_option arg && (arg.drop 1).all (fun c => c == 'a' || c == 'p' || c == 's')

/-! ## Reading a run -/

/-- The paths handed to `access`, in order. -/
def tested : List Event → List (List Char)
  | [] => []
  | Event.access p :: es => p :: tested es
  | _ :: es => tested es

/-- The texts written to standard output, in order. -/
def printed : List Event → List (List Char)
  | [] => []
  | Event.stdout t :: es => t :: printed es
  | _ :: es => printed es

/-- The texts written to standard error, in order. -/
def diagnosed : List Event → List (List Char)
  | [] => []
  | Event.stderr t :: es => t :: diagnosed es
  | _ :: es => diagnosed es

/-- The candidates of the directory entries `entries` (as `path_iter` lists
them): what `create_full_path` builds for each, `none` if one of the calls reads
outside memory. -/
def candidates (PATH_MAX : Nat) (mem name : List Char) :
    List (Nat × List Char) → Option (List (List Char))
  | [] => some []
  | e :: es =>
    match create_full_path PATH_MAX mem e.1 name, candidates PATH_MAX mem name es with
    | some c, some cs => some (c :: cs)
    | _, _ => none

/-- The line for a found path: `<queryName>: <path>` with the prefix, `<path>`
without, each ended by a newline. -/
def report_line (with_name : Bool) (queryName path : List Char) : List Char :=
  if with_name then queryName ++ [':', ' '] ++ path ++ ['\n'] else path ++ ['\n']

/-- The packed buffer of a list of directory strings: each followed by a NUL. -/
def packed : List (List Char) → List Char
  | [] => []
  | e :: es => e ++ NUL :: packed es

/-- The search-path string cut at every `':'`. -/
def fields : List Char → List (List Char)
  | [] => [[]]
  | c :: cs =>
    if c = ':' then [] :: fields cs
    else
      match fields cs with
      | [] => [[c]]
      | e :: es => (c :: e) :: es

/-- The entries `es` with the address of each, the first being at `p`. -/
def located (p : Nat) : List (List Char) → List (Nat × List Char)
  | [] => []
  | e :: es => (p, e) :: located (p + e.length + 1) es

/-- The `for` loop of `try_find` read as a function of the candidate list. -/
def scan (fs : List Char → Bool) (name : List Char) (try_all prefix_name quiet : Bool) :
    List (List Char) → Bool → LoopExit
  | [], success => LoopExit.finished success []
  | c :: cs, success =>
    let r := try_print fs c name prefix_name quiet
    if (success || r.1) && !try_all then LoopExit.returned r.2
    else
      match scan fs name try_all prefix_name quiet cs (success || r.1) with
      | LoopExit.returned ev => LoopExit.returned (r.2 ++ ev)
      | LoopExit.finished s ev => LoopExit.finished s (r.2 ++ ev)

/-- The events of a loop run. -/
def LoopExit.events : LoopExit → List Event
  | LoopExit.returned ev => ev
  | LoopExit.finished _ ev => ev

/-- The value of `success` a loop run ends with (`return true` is taken only
when it is true). -/
def LoopExit.success : LoopExit → Bool
  | LoopExit.returned _ => true
  | LoopExit.finished s _ => s

/-- A query with a `'/'` that is longer than `PATH_MAX - 1 = 4095` bytes: 4089
slashes followed by `bin/lsXYZ` (4098 bytes). -/
def long_query : List Char :=
  List.replicate 4089 '/' ++ ['b', 'i', 'n', '/', 'l', 's', 'X', 'Y', 'Z']

/-- The first 4095 bytes of `long_query`: 4089 slashes followed by `bin/ls`. -/
def long_query_cut : List Char :=
  List.replicate 4089 '/' ++ ['b', 'i', 'n', '/', 'l', 's']

/-- A filesystem in which `long_query_cut` is the only executable path. -/
def only_cut (path : List Char) : Bool := decide (path = long_query_cut)

/-- The lines printed in `events` are the report lines, under the name
`queryName`, of the tested paths that `fs` finds executable, in order; with
`quiet` nothing is printed. -/
def well_reported (fs : List Char → Bool) (queryName : List Char) (with_name quiet : Bool)
    (events : List Event) : Prop :=
  printed events
    = if quiet then [] else ((tested events).filter fs).map (report_line with_name queryName)

instance (fs : List Char → Bool) (queryName : List Char) (with_name quiet : Bool)
    (events : List Event) : Decidable (well_reported fs queryName with_name quiet events) := by
  unfold well_reported
  infer_instance

/-! ## The C library functions -/

theorem NUL_ne_colon : NUL ≠ ':' := by decide

theorem NUL_ne_slash : NUL ≠ '/' := by decide

theorem cstrAux_append (a rest : List Char) (ha : NUL ∉ a) :
    cstrAux (a ++ NUL :: rest) = some a := by
  induction a with
  | nil => simp [cstrAux]
  | cons x xs ih =>
    have hx : x ≠ NUL := fun h => ha (by simp [h])
    have hxs : NUL ∉ xs := fun h => ha (by simp [h])
    simp [cstrAux, hx, ih hxs]

theorem cstr_at (pre a rest : List Char) (ha : NUL ∉ a) :
    cstr (pre ++ (a ++ NUL :: rest)) pre.length = some a := by
  simp [cstr, cstrAux_append a rest ha]

theorem strlen_at (pre a rest : List Char) (ha : NUL ∉ a) :
    strlen (pre ++ (a ++ NUL :: rest)) pre.length = some a.length := by
  simp [strlen, cstr_at pre a rest ha]

theorem strchrFrom_found (c : Char) (a rest : List Char) (i : Nat)
    (hc : c ∉ a) (ha : NUL ∉ a) :
    strchrFrom c (a ++ c :: rest) i = some (some (i + a.length)) := by
  induction a generalizing i with
  | nil => simp [strchrFrom]
  | cons x xs ih =>
    have hx : x ≠ c := fun h => hc (by simp [h])
    have hx0 : x ≠ NUL := fun h => ha (by simp [h])
    have h1 : c ∉ xs := fun h => hc (by simp [h])
    have h2 : NUL ∉ xs := fun h => ha (by simp [h])
    simp [strchrFrom, hx, hx0, ih (i + 1) h1 h2]
    omega

theorem strchrFrom_absent (c : Char) (a rest : List Char) (i : Nat)
    (hc : c ∉ a) (ha : NUL ∉ a) (hc0 : NUL ≠ c) :
    strchrFrom c (a ++ NUL :: rest) i = some none := by
  induction a generalizing i with
  | nil => simp [strchrFrom, hc0]
  | cons x xs ih =>
    have hx : x ≠ c := fun h => hc (by simp [h])
    have hx0 : x ≠ NUL := fun h => ha (by simp [h])
    have h1 : c ∉ xs := fun h => hc (by simp [h])
    have h2 : NUL ∉ xs := fun h => ha (by simp [h])
    simp [strchrFrom, hx, hx0, ih (i + 1) h1 h2]

/-! ## Cutting the search path -/

theorem fields_ne_nil (s : List Char) : fields s ≠ [] := by
  cases s with
  | nil => simp [fields]
  | cons c cs =>
    by_cases h : c = ':'
    · simp [fields, h]
    · cases hf : fields cs <;> simp [fields, h, hf]

theorem fields_no_colon (a : List Char) (ha : ':' ∉ a) : fields a = [a] := by
  induction a with
  | nil => rfl
  | cons x xs ih =>
    have hx : x ≠ ':' := fun h => ha (by simp [h])
    have hxs : ':' ∉ xs := fun h => ha (by simp [h])
    simp [fields, hx, ih hxs]

theorem fields_append_colon (a b : List Char) (ha : ':' ∉ a) :
    fields (a ++ ':' :: b) = a :: fields b := by
  induction a with
  | nil => simp [fields]
  | cons x xs ih =>
    have hx : x ≠ ':' := fun h => ha (by simp [h])
    have hxs : ':' ∉ xs := fun h => ha (by simp [h])
    simp [fields, hx, ih hxs]

theorem first_colon (s : List Char) (h : ':' ∈ s) :
    ∃ a b, s = a ++ ':' :: b ∧ ':' ∉ a := by
  induction s with
  | nil => simp at h
  | cons x xs ih =>
    by_cases hx : x = ':'
    · exact ⟨[], xs, by simp [hx], by simp⟩
    · have hxs : ':' ∈ xs := by
        rcases List.mem_cons.mp h with h1 | h1
        · exact absurd h1.symm hx
        · exact h1
      obtain ⟨a, b, hab, ha⟩ := ih hxs
      refine ⟨x :: a, b, by simp [hab], ?_⟩
      intro hm
      rcases List.mem_cons.mp hm with h1 | h1
      · exact hx h1.symm
      · exact ha h1

theorem fields_length (s : List Char) : (fields s).length = s.count ':' + 1 := by
  induction s with
  | nil => rfl
  | cons c cs ih =>
    by_cases h : c = ':'
    · subst h
      simp [fields, ih]
    · have h2 : (c == ':') = false := by simpa using h
      cases hf : fields cs with
      | nil => exact absurd hf (fields_ne_nil cs)
      | cons e es =>
        rw [hf] at ih
        simp [fields, h, hf, List.count_cons, h2] at ih ⊢
        omega

theorem fields_no_sep (s : List Char) : ∀ e ∈ fields s, ':' ∉ e := by
  induction s with
  | nil => simp [fields]
  | cons c cs ih =>
    by_cases h : c = ':'
    · subst h
      intro e he
      simp only [fields, if_true, List.mem_cons] at he
      rcases he with he | he
      · simp [he]
      · exact ih e he
    · cases hf : fields cs with
      | nil => exact absurd hf (fields_ne_nil cs)
      | cons e0 es =>
        rw [hf] at ih
        intro e he
        simp only [fields, h, if_false, hf, List.mem_cons] at he
        rcases he with he | he
        · subst he
          intro hm
          rcases List.mem_cons.mp hm with h1 | h1
          · exact h h1.symm
          · exact ih e0 (by simp) h1
        · exact ih e (by simp [he])

theorem fields_no_NUL (s : List Char) (hs : NUL ∉ s) : ∀ e ∈ fields s, NUL ∉ e := by
  induction s with
  | nil => simp [fields]
  | cons c cs ih =>
    have hc : NUL ≠ c := fun h => hs (by simp [h])
    have hcs : NUL ∉ cs := fun h => hs (by simp [h])
    have ih1 := ih hcs
    by_cases h : c = ':'
    · intro e he
      simp only [fields, h, if_true, List.mem_cons] at he
      rcases he with he | he
      · simp [he]
      · exact ih1 e he
    · cases hf : fields cs with
      | nil => exact absurd hf (fields_ne_nil cs)
      | cons e0 es =>
        rw [hf] at ih1
        intro e he
        simp only [fields, h, if_false, hf, List.mem_cons] at he
        rcases he with he | he
        · subst he
          intro hm
          rcases List.mem_cons.mp hm with h1 | h1
          · exact hc h1
          · exact ih1 e0 (by simp) h1
        · exact ih1 e (by simp [he])

theorem fields_join (s : List Char) : [':'].intercalate (fields s) = s := by
  induction s with
  | nil => rfl
  | cons c cs ih =>
    by_cases h : c = ':'
    · subst h
      cases hf : fields cs with
      | nil => exact absurd hf (fields_ne_nil cs)
      | cons e es =>
        rw [hf] at ih
        simp only [fields, if_true, hf]
        rw [List.intercalate] at ih ⊢
        simp only [List.intersperse, List.flatten] at ih ⊢
        simp [ih]
    · cases hf : fields cs with
      | nil => exact absurd hf (fields_ne_nil cs)
      | cons e es =>
        rw [hf] at ih
        simp only [fields, h, if_false, hf]
        rw [List.intercalate] at ih ⊢
        cases es with
        | nil => simpa using ih
        | cons e1 es1 =>
          simp only [List.intersperse, List.flatten] at ih ⊢
          simpa using ih

/-! ## create_path_items -/

theorem create_path_items_loop_spec (fuel : Nat) :
    ∀ (pre rest : List Char), NUL ∉ rest → rest.length < fuel →
      create_path_items_loop fuel (pre ++ (rest ++ [NUL])) pre.length
        = Outcome.ok (pre ++ packed (fields rest)) := by
  induction fuel with
  | zero => intro pre rest _ h; omega
  | succ fuel ih =>
    intro pre rest hrest hlen
    by_cases hc : ':' ∈ rest
    · obtain ⟨a, b, hab, ha⟩ := first_colon rest hc
      subst hab
      have ha0 : NUL ∉ a := fun h => hrest (by simp [h])
      have hb0 : NUL ∉ b := fun h => hrest (by simp [h])
      have hscan : strchr (pre ++ (a ++ ':' :: b ++ [NUL])) pre.length ':'
          = some (some (pre.length + a.length)) := by
        have := strchrFrom_found ':' a (b ++ [NUL]) pre.length ha ha0
        simpa [strchr] using this
      have hset : (pre ++ (a ++ ':' :: b ++ [NUL])).set (pre.length + a.length) NUL
          = (pre ++ (a ++ [NUL])) ++ (b ++ [NUL]) := by
        have h1 : pre ++ (a ++ ':' :: b ++ [NUL]) = (pre ++ a) ++ (':' :: (b ++ [NUL])) := by
          simp
        have h2 : pre.length + a.length = (pre ++ a).length := by simp
        rw [h1, h2, List.set_append_right _ _ (Nat.le_refl _)]
        simp
      have hlen2 : b.length < fuel := by
        simp at hlen
        omega
      have hnext := ih (pre ++ (a ++ [NUL])) b hb0 hlen2
      have hl : (pre ++ (a ++ [NUL])).length = pre.length + a.length + 1 := by
        simp
        omega
      rw [hl] at hnext
      rw [create_path_items_loop, hscan]
      simp only []
      rw [hset, hnext, fields_append_colon a b ha]
      simp [packed]
    · have hscan : strchr (pre ++ (rest ++ [NUL])) pre.length ':' = some none := by
        have := strchrFrom_absent ':' rest [] pre.length hc hrest NUL_ne_colon
        simpa [strchr] using this
      rw [create_path_items_loop, hscan]
      simp [fields_no_colon rest hc, packed]

theorem create_path_items_spec (s : List Char) (hs : NUL ∉ s) :
    create_path_items true s = Outcome.ok (some (packed (fields s), s.length + 1)) := by
  have h := create_path_items_loop_spec (s.length + 1) [] s hs (Nat.lt_succ_self _)
  simp only [List.nil_append, List.length_nil] at h
  simp [create_path_items, h]

theorem packed_fields_length (s : List Char) : (packed (fields s)).length = s.length + 1 := by
  induction s with
  | nil => rfl
  | cons c cs ih =>
    by_cases h : c = ':'
    · simp [fields, h, packed, ih]
    · cases hf : fields cs with
      | nil => exact absurd hf (fields_ne_nil cs)
      | cons e es =>
        rw [hf] at ih
        simp [fields, h, hf, packed] at ih ⊢
        omega

/-! ## The walk over the packed buffer -/

theorem packed_cons_append (pre e : List Char) (es : List (List Char)) :
    pre ++ packed (e :: es) = (pre ++ (e ++ [NUL])) ++ packed es := by
  simp [packed]

theorem path_iter_spec (es : List (List Char)) :
    ∀ (pre : List Char) (fuel : Nat), (∀ e ∈ es, NUL ∉ e) → es.length ≤ fuel →
      path_iter (pre ++ packed es) (pre.length + (packed es).length) fuel pre.length
        = Outcome.ok (located pre.length es) := by
  induction es with
  | nil =>
    intro pre fuel _ _
    cases fuel <;> simp [path_iter, packed, located]
  | cons e es ih =>
    intro pre fuel hes hfuel
    cases fuel with
    | zero => simp at hfuel
    | succ fuel =>
      have he : NUL ∉ e := hes e (by simp)
      have hes1 : ∀ x ∈ es, NUL ∉ x := fun x hx => hes x (by simp [hx])
      have hlt : pre.length < pre.length + (packed (e :: es)).length := by
        simp [packed]
      have hstr : cstr (pre ++ packed (e :: es)) pre.length = some e := by
        simpa [packed] using cstr_at pre e (packed es) he
      have hnext := ih (pre ++ (e ++ [NUL])) fuel hes1 (by simpa using hfuel)
      have hl : (pre ++ (e ++ [NUL])).length = pre.length + e.length + 1 := by
        simp
        omega
      have hstop : (pre ++ (e ++ [NUL])).length + (packed es).length
          = pre.length + (packed (e :: es)).length := by
        simp [packed]
        omega
      rw [hstop, ← packed_cons_append, hl] at hnext
      rw [path_iter, if_pos hlt, hstr]
      simp only []
      rw [hnext]
      simp [located]

theorem cstrAux_some (l d : List Char) (h : cstrAux l = some d) :
    ∃ rest, l = d ++ NUL :: rest ∧ NUL ∉ d := by
  induction l generalizing d with
  | nil => simp [cstrAux] at h
  | cons x xs ih =>
    by_cases hx : x = NUL
    · simp [cstrAux, hx] at h
      subst h
      exact ⟨xs, by simp [hx], by simp⟩
    · simp only [cstrAux, hx, if_false, Option.map_eq_some'] at h
      obtain ⟨d1, hd1, hd⟩ := h
      obtain ⟨rest, hr, hn⟩ := ih d1 hd1
      subst hd
      refine ⟨rest, by simp [hr], ?_⟩
      intro hm
      rcases List.mem_cons.mp hm with h1 | h1
      · exact hx h1.symm
      · exact hn h1

theorem cstr_some (mem d : List Char) (p : Nat) (h : cstr mem p = some d) :
    ∃ rest, mem.drop p = d ++ NUL :: rest ∧ NUL ∉ d :=
  cstrAux_some (mem.drop p) d h

theorem get_last_of_cstr (mem d : List Char) (p : Nat) (h : cstr mem p = some d)
    (hne : d ≠ []) : mem.get? (p + d.length - 1) = some (d.getLast hne) := by
  obtain ⟨rest, hr, _⟩ := cstr_some mem d p h
  have hpos : 0 < d.length := List.length_pos.mpr hne
  have h1 : (mem.drop p)[d.length - 1]? = mem[p + (d.length - 1)]? := List.getElem?_drop _ _ _
  have h2 : (d ++ NUL :: rest)[d.length - 1]? = d[d.length - 1]? :=
    List.getElem?_append_left (by omega)
  have h3 : d[d.length - 1]? = some (d.getLast hne) := by
    rw [List.getLast_eq_getElem]
    exact List.getElem?_eq_getElem (by omega)
  have h4 : p + d.length - 1 = p + (d.length - 1) := by omega
  rw [List.get?_eq_getElem?, h4, ← h1, hr, h2, h3]

theorem create_full_path_nonempty (size : Nat) (mem d file : List Char) (dir : Nat)
    (h : cstr mem dir = some d) (hne : d ≠ []) :
    create_full_path size mem dir file
      = some ((d ++ (if d.getLast hne = '/' then [] else ['/']) ++ file).take (size - 1)) := by
  have hpos : 0 < d.length := List.length_pos.mpr hne
  have h0 : ¬ (dir + d.length = 0) := by omega
  simp only [create_full_path, h, h0, if_false, get_last_of_cstr mem d dir h hne]

theorem create_full_path_empty (size : Nat) (pre rest file : List Char) (b : Char) :
    create_full_path size ((pre ++ [b]) ++ NUL :: rest) (pre ++ [b]).length file
      = some (((if b = '/' then [] else ['/']) ++ file).take (size - 1)) := by
  have h : cstr ((pre ++ [b]) ++ NUL :: rest) (pre ++ [b]).length = some [] := by
    simpa using cstr_at (pre ++ [b]) [] rest (by simp)
  have h0 : ¬ ((pre ++ [b]).length + ([] : List Char).length = 0) := by simp
  have hg : ((pre ++ [b]) ++ NUL :: rest).get? ((pre ++ [b]).length + ([] : List Char).length - 1)
      = some b := by
    have h1 : (pre ++ [b]).length + ([] : List Char).length - 1 = pre.length := by simp
    have h2 : (pre ++ [b]) ++ NUL :: rest = pre ++ (b :: NUL :: rest) := by simp
    rw [h1, h2, List.get?_eq_getElem?, List.getElem?_append_right (Nat.le_refl _)]
    simp
  simp only [create_full_path, h, h0, if_false, hg, List.nil_append]

theorem candidates_defined (PATH_MAX : Nat) (name : List Char) (es : List (List Char)) :
    ∀ (pre : List Char), (∀ e ∈ es, NUL ∉ e) →
      (pre = [] → ∀ e, es.head? = some e → e ≠ []) →
      ∃ cands, candidates PATH_MAX (pre ++ packed es) name (located pre.length es) = some cands
        ∧ cands.length = es.length := by
  induction es with
  | nil => intro pre _ _; exact ⟨[], rfl, rfl⟩
  | cons e es ih =>
    intro pre hes hpre
    have he : NUL ∉ e := hes e (by simp)
    have hes1 : ∀ x ∈ es, NUL ∉ x := fun x hx => hes x (by simp [hx])
    have hstr : cstr (pre ++ packed (e :: es)) pre.length = some e := by
      simpa [packed] using cstr_at pre e (packed es) he
    have hfirst : ∃ c, create_full_path PATH_MAX (pre ++ packed (e :: es)) pre.length name
        = some c := by
      by_cases hne : e = []
      · subst hne
        rcases List.eq_nil_or_concat pre with h0 | ⟨pre0, b, hb⟩
        · exact absurd rfl (hpre h0 [] rfl)
        · subst hb
          have := create_full_path_empty PATH_MAX pre0 (packed es) name b
          exact ⟨_, by simpa [packed] using this⟩
      · exact ⟨_, create_full_path_nonempty PATH_MAX _ e name pre.length hstr hne⟩
    obtain ⟨c, hc⟩ := hfirst
    obtain ⟨cs, hcs, hlen⟩ := ih (pre ++ (e ++ [NUL])) hes1 (by simp)
    have hl : (pre ++ (e ++ [NUL])).length = pre.length + e.length + 1 := by
      simp
      omega
    rw [← packed_cons_append, hl] at hcs
    refine ⟨c :: cs, ?_, by simp [hlen]⟩
    simp only [located, candidates, hc, hcs]

theorem try_find_loop_scan (PATH_MAX : Nat) (fs : List Char → Bool) (name : List Char)
    (try_all prefix_name quiet : Bool) (es : List (List Char)) :
    ∀ (pre : List Char) (fuel : Nat) (success : Bool) (cands : List (List Char)),
      (∀ e ∈ es, NUL ∉ e) → es.length ≤ fuel →
      candidates PATH_MAX (pre ++ packed es) name (located pre.length es) = some cands →
      try_find_loop PATH_MAX fs (pre ++ packed es) name (pre.length + (packed es).length)
          try_all prefix_name quiet fuel pre.length success
        = Outcome.ok (scan fs name try_all prefix_name quiet cands success) := by
  induction es with
  | nil =>
    intro pre fuel success cands _ _ hc
    simp only [located, candidates, Option.some.injEq] at hc
    subst hc
    cases fuel <;> simp [try_find_loop, packed, scan]
  | cons e es ih =>
    intro pre fuel success cands hes hfuel hc
    cases fuel with
    | zero => simp at hfuel
    | succ fuel =>
      have he : NUL ∉ e := hes e (by simp)
      have hes1 : ∀ x ∈ es, NUL ∉ x := fun x hx => hes x (by simp [hx])
      have hlt : pre.length < pre.length + (packed (e :: es)).length := by
        simp [packed]
      have hlen : strlen (pre ++ packed (e :: es)) pre.length = some e.length := by
        simpa [packed] using strlen_at pre e (packed es) he
      simp only [located, candidates] at hc
      cases hc1 : create_full_path PATH_MAX (pre ++ packed (e :: es)) pre.length name with
      | none => simp [hc1] at hc
      | some c =>
        cases hc2 : candidates PATH_MAX (pre ++ packed (e :: es)) name
            (located (pre.length + e.length + 1) es) with
        | none => simp [hc1, hc2] at hc
        | some cs =>
          simp only [hc1, hc2, Option.some.injEq] at hc
          subst hc
          have hl : (pre ++ (e ++ [NUL])).length = pre.length + e.length + 1 := by
            simp
            omega
          have hstop : (pre ++ (e ++ [NUL])).length + (packed es).length
              = pre.length + (packed (e :: es)).length := by
            simp [packed]
            omega
          have hnext := ih (pre ++ (e ++ [NUL])) fuel
            (success || (try_print fs c name prefix_name quiet).1) cs hes1
            (by simpa using hfuel)
            (by rw [← packed_cons_append, hl]; exact hc2)
          rw [hstop, ← packed_cons_append, hl] at hnext
          rw [try_find_loop, if_pos hlt, hc1]
          simp only []
          by_cases hret : ((success || (try_print fs c name prefix_name quiet).1)
              && !try_all) = true
          · rw [if_pos hret, scan]
            rw [if_pos hret]
          · rw [if_neg hret, hlen]
            simp only []
            rw [hnext, scan]
            rw [if_neg hret]
            cases scan fs name try_all prefix_name quiet cs
              (success || (try_print fs c name prefix_name quiet).1) <;> rfl

/-! ## Reading events -/

theorem tested_append (a b : List Event) : tested (a ++ b) = tested a ++ tested b := by
  induction a with
  | nil => rfl
  | cons e es ih => cases e <;> simp [tested, ih]

theorem printed_append (a b : List Event) : printed (a ++ b) = printed a ++ printed b := by
  induction a with
  | nil => rfl
  | cons e es ih => cases e <;> simp [printed, ih]

theorem diagnosed_append (a b : List Event) :
    diagnosed (a ++ b) = diagnosed a ++ diagnosed b := by
  induction a with
  | nil => rfl
  | cons e es ih => cases e <;> simp [diagnosed, ih]

theorem try_print_fst (fs : List Char → Bool) (path name : List Char) (pn q : Bool) :
    (try_print fs path name pn q).1 = fs path := rfl

theorem try_print_tested (fs : List Char → Bool) (path name : List Char) (pn q : Bool) :
    tested (try_print fs path name pn q).2 = [path] := by
  unfold try_print
  cases fs path <;> cases q <;> cases pn <;> simp [tested]

theorem try_print_printed (fs : List Char → Bool) (path name : List Char) (pn q : Bool) :
    printed (try_print fs path name pn q).2
      = if fs path && !q then [report_line pn name path] else [] := by
  unfold try_print
  cases fs path <;> cases q <;> cases pn <;> simp [printed, report_line]

theorem try_print_diagnosed (fs : List Char → Bool) (path name : List Char) (pn q : Bool) :
    diagnosed (try_print fs path name pn q).2 = [] := by
  unfold try_print
  cases fs path <;> cases q <;> cases pn <;> simp [diagnosed]

/-! ## The loop as a function of the candidates -/

theorem scan_success (fs : List Char → Bool) (name : List Char) (ta pn q : Bool)
    (cands : List (List Char)) :
    ∀ s0 : Bool, (scan fs name ta pn q cands s0).success = (s0 || cands.any fs) := by
  induction cands with
  | nil => intro s0; simp [scan, LoopExit.success]
  | cons c cs ih =>
    intro s0
    rw [scan]
    by_cases hret : ((s0 || (try_print fs c name pn q).1) && !ta) = true
    · rw [if_pos hret]
      simp only [LoopExit.success, List.any_cons]
      rw [try_print_fst] at hret
      cases s0 <;> cases hfc : fs c <;> simp_all
    · rw [if_neg hret]
      have h := ih (s0 || (try_print fs c name pn q).1)
      rw [try_print_fst] at h ⊢
      cases hsc : scan fs name ta pn q cs (s0 || fs c) with
      | returned ev =>
        rw [hsc] at h
        simp only [LoopExit.success, List.any_cons] at h ⊢
        rw [h, Bool.or_assoc]
      | finished s ev =>
        rw [hsc] at h
        simp only [LoopExit.success, List.any_cons] at h ⊢
        rw [h, Bool.or_assoc]

theorem scan_events_cons (fs : List Char → Bool) (name : List Char) (ta pn q : Bool)
    (c : List Char) (cs : List (List Char)) (s0 : Bool) :
    (scan fs name ta pn q (c :: cs) s0).events
      = (try_print fs c name pn q).2 ++
        (if ((s0 || fs c) && !ta) = true then []
         else (scan fs name ta pn q cs (s0 || fs c)).events) := by
  rw [scan, try_print_fst]
  by_cases hret : ((s0 || fs c) && !ta) = true
  · rw [if_pos hret, if_pos hret]
    simp [LoopExit.events]
  · rw [if_neg hret, if_neg hret]
    cases scan fs name ta pn q cs (s0 || fs c) <;> simp [LoopExit.events]

theorem scan_diagnosed (fs : List Char → Bool) (name : List Char) (ta pn q : Bool)
    (cands : List (List Char)) :
    ∀ s0 : Bool, diagnosed (scan fs name ta pn q cands s0).events = [] := by
  induction cands with
  | nil => intro s0; simp [scan, LoopExit.events, diagnosed]
  | cons c cs ih =>
    intro s0
    rw [scan_events_cons, diagnosed_append, try_print_diagnosed]
    split
    · rfl
    · simpa using ih _

theorem scan_printed (fs : List Char → Bool) (name : List Char) (ta pn q : Bool)
    (cands : List (List Char)) :
    ∀ s0 : Bool, printed (scan fs name ta pn q cands s0).events
      = if q then [] else ((tested (scan fs name ta pn q cands s0).events).filter fs).map
          (report_line pn name) := by
  induction cands with
  | nil => intro s0; cases q <;> simp [scan, LoopExit.events, printed, tested]
  | cons c cs ih =>
    intro s0
    rw [scan_events_cons, printed_append, tested_append, try_print_printed, try_print_tested]
    have hrest : ∀ rest : List Event,
        rest = (if ((s0 || fs c) && !ta) = true then []
          else (scan fs name ta pn q cs (s0 || fs c)).events) →
        printed rest = if q then [] else ((tested rest).filter fs).map (report_line pn name) := by
      intro rest hr
      by_cases hret : ((s0 || fs c) && !ta) = true
      · rw [if_pos hret] at hr
        subst hr
        cases q <;> simp [printed, tested]
      · rw [if_neg hret] at hr
        subst hr
        exact ih _
    rw [hrest _ rfl]
    cases q <;> cases hfc : fs c <;> simp [hfc]

theorem scan_all_tested (fs : List Char → Bool) (name : List Char) (pn q : Bool)
    (cands : List (List Char)) :
    ∀ s0 : Bool, tested (scan fs name true pn q cands s0).events = cands := by
  induction cands with
  | nil => intro s0; simp [scan, LoopExit.events, tested]
  | cons c cs ih =>
    intro s0
    rw [scan_events_cons, tested_append, try_print_tested]
    simp [ih]

theorem scan_all_finished (fs : List Char → Bool) (name : List Char) (pn q : Bool)
    (cands : List (List Char)) :
    ∀ s0 : Bool, ∃ ev, scan fs name true pn q cands s0
      = LoopExit.finished (s0 || cands.any fs) ev := by
  induction cands with
  | nil => intro s0; exact ⟨[], by simp [scan]⟩
  | cons c cs ih =>
    intro s0
    obtain ⟨ev, hev⟩ := ih (s0 || (try_print fs c name pn q).1)
    refine ⟨(try_print fs c name pn q).2 ++ ev, ?_⟩
    rw [scan]
    simp only [Bool.not_true, Bool.and_false, Bool.false_eq_true, if_false]
    rw [hev, try_print_fst]
    simp [Bool.or_assoc]

theorem scan_first_tested (fs : List Char → Bool) (name : List Char) (pn q : Bool)
    (cands : List (List Char)) :
    tested (scan fs name false pn q cands false).events
      = cands.takeWhile (fun c => !fs c) ++ (cands.find? fs).toList := by
  induction cands with
  | nil => simp [scan, LoopExit.events, tested]
  | cons c cs ih =>
    rw [scan_events_cons, tested_append, try_print_tested]
    cases hfc : fs c
    · simp [hfc, ih, List.takeWhile_cons, List.find?_cons]
    · simp [hfc, tested, List.takeWhile_cons, List.find?_cons]

/-! ## try_find -/

theorem try_find_search (PATH_MAX : Nat) (fs : List Char → Bool)
    (argv0 stack heap_before s name original_path : List Char) (ta pn q : Bool)
    (cands : List (List Char)) (hs : NUL ∉ s) (hname : '/' ∉ name)
    (hc : candidates PATH_MAX (heap_before ++ packed (fields s)) name
      (located heap_before.length (fields s)) = some cands) :
    ∃ r, try_find PATH_MAX fs argv0 stack (heap_before ++ packed (fields s)) name
        (some heap_before.length) original_path (s.length + 1) ta pn q = Outcome.ok r
      ∧ r.success = cands.any fs
      ∧ r.name_after = name
      ∧ tested r.events = tested (scan fs name ta pn q cands false).events
      ∧ printed r.events = printed (scan fs name ta pn q cands false).events
      ∧ diagnosed r.events
          = if cands.any fs || q then [] else [diagnostic argv0 name original_path] := by
  have hfuel : (fields s).length ≤ s.length + 1 := by
    rw [fields_length]
    have := List.count_le_length ':' s
    omega
  have hloop := try_find_loop_scan PATH_MAX fs name ta pn q (fields s) heap_before
    (s.length + 1) false cands (fields_no_NUL s hs) hfuel hc
  rw [packed_fields_length] at hloop
  have hsucc := scan_success fs name ta pn q cands false
  have hdiag := scan_diagnosed fs name ta pn q cands false
  simp only [try_find, if_neg hname, hloop]
  cases hsc : scan fs name ta pn q cands false with
  | returned ev =>
    rw [hsc] at hsucc hdiag
    simp only [LoopExit.success, Bool.false_or] at hsucc
    simp only [LoopExit.events] at hdiag
    refine ⟨_, rfl, ?_, rfl, rfl, rfl, ?_⟩
    · exact hsucc
    · simp [LoopExit.events, hdiag, ← hsucc]
  | finished su ev =>
    rw [hsc] at hsucc hdiag
    simp only [LoopExit.success, Bool.false_or] at hsucc
    simp only [LoopExit.events] at hdiag
    refine ⟨_, rfl, ?_, rfl, ?_, ?_, ?_⟩
    · exact hsucc
    · rw [tested_append]
      cases su <;> cases q <;> simp [tested, LoopExit.events]
    · rw [printed_append]
      cases su <;> cases q <;> simp [printed, LoopExit.events]
    · rw [diagnosed_append, hdiag, ← hsucc]
      cases su <;> cases q <;> simp [diagnosed]

theorem strrchr_last (dir base : List Char) (c : Char) (hbase : c ∉ base) :
    strrchr (dir ++ c :: base) c = some dir.length := by
  have hb : strrchr base c = none := by
    induction base with
    | nil => rfl
    | cons x xs ih =>
      have hx : x ≠ c := fun h => hbase (by simp [h])
      have hxs : c ∉ xs := fun h => hbase (by simp [h])
      simp [strrchr, ih hxs, hx]
  induction dir with
  | nil => simp [strrchr, hb]
  | cons x xs ih => simp [strrchr, ih]

theorem strncpy_short (stack name : List Char) (n : Nat) (hlen : name.length < n) :
    ∃ rest, strncpy stack name n = name ++ NUL :: rest := by
  have h1 : n - name.length = (n - name.length - 1) + 1 := by omega
  have h2 : (name ++ List.replicate (n - name.length) NUL).take n
      = name ++ List.replicate (n - name.length) NUL := by
    apply List.take_of_length_le
    simp
    omega
  refine ⟨List.replicate (n - name.length - 1) NUL ++ stack.drop n, ?_⟩
  rw [strncpy, h2, h1, List.replicate_succ]
  simp

theorem try_find_slash (PATH_MAX : Nat) (fs : List Char → Bool)
    (argv0 stack mem name original_path dir base : List Char) (items : Option Nat)
    (path_size : Nat) (ta pn q : Bool)
    (hname : name = dir ++ '/' :: base) (hbase : '/' ∉ base) (h0 : NUL ∉ name)
    (hlen : name.length + 1 < PATH_MAX) :
    try_find PATH_MAX fs argv0 stack mem name items original_path path_size ta pn q
      = Outcome.ok ⟨fs name,
          (try_print fs name base pn q).2 ++
            (if !fs name && !q then [Event.stderr (diagnostic argv0 base dir)] else []),
          dir ++ NUL :: base⟩ := by
  have hmem : '/' ∈ name := by simp [hname]
  have hk : strrchr name '/' = some dir.length := by
    rw [hname]
    exact strrchr_last dir base '/' hbase
  obtain ⟨rest, hrest⟩ := strncpy_short stack name (PATH_MAX - 1) (by omega)
  have hstr : cstr (strncpy stack name (PATH_MAX - 1)) 0 = some name := by
    rw [hrest]
    have := cstr_at [] name rest h0
    simpa using this
  have htake : name.take dir.length = dir := by simp [hname]
  have hdrop : name.drop (dir.length + 1) = base := by
    rw [hname, List.drop_append_eq_append_drop]
    simp
  have hset : name.set dir.length NUL = dir ++ NUL :: base := by
    rw [hname, List.set_append_right _ _ (Nat.le_refl _)]
    simp
  simp only [try_find, if_pos hmem, hk, hstr, htake, hdrop, hset, try_print_fst]

theorem located_length (es : List (List Char)) : ∀ p, (located p es).length = es.length := by
  induction es with
  | nil => intro p; rfl
  | cons e es ih => intro p; simp [located, ih]

theorem located_strings (es : List (List Char)) :
    ∀ p, (located p es).map Prod.snd = es := by
  induction es with
  | nil => intro p; rfl
  | cons e es ih => intro p; simp [located, ih]

theorem path_iter_fields (s heap_before : List Char) (hs : NUL ∉ s) :
    path_iter (heap_before ++ packed (fields s)) (heap_before.length + (s.length + 1))
        (s.length + 1) heap_before.length
      = Outcome.ok (located heap_before.length (fields s)) := by
  have hfuel : (fields s).length ≤ s.length + 1 := by
    rw [fields_length]
    have := List.count_le_length ':' s
    omega
  have h := path_iter_spec (fields s) heap_before (s.length + 1) (fields_no_NUL s hs) hfuel
  rw [packed_fields_length] at h
  exact h

theorem cstrAux_none (l : List Char) (h : NUL ∉ l) : cstrAux l = none := by
  induction l with
  | nil => rfl
  | cons x xs ih =>
    have hx : x ≠ NUL := fun e => h (by simp [e])
    have hxs : NUL ∉ xs := fun e => h (by simp [e])
    simp [cstrAux, hx, ih hxs]

theorem strncpy_long (stack name : List Char) (n : Nat) (hlen : n ≤ name.length) :
    strncpy stack name n = name.take n ++ stack.drop n := by
  have h0 : n - name.length = 0 := by omega
  simp [strncpy, h0]

theorem try_find_slash_long (PATH_MAX : Nat) (fs : List Char → Bool)
    (argv0 stack mem name original_path dir base : List Char) (items : Option Nat)
    (path_size : Nat) (ta pn q : Bool) (b : Char)
    (hname : name = dir ++ '/' :: base) (hbase : '/' ∉ base) (h0 : NUL ∉ name)
    (hlen : PATH_MAX - 1 ≤ name.length) (hstack : stack.drop (PATH_MAX - 1) = [b]) :
    try_find PATH_MAX fs argv0 stack mem name items original_path path_size ta pn q
      = if b = NUL then
          Outcome.ok ⟨fs (name.take (PATH_MAX - 1)),
            (try_print fs (name.take (PATH_MAX - 1)) base pn q).2 ++
              (if !fs (name.take (PATH_MAX - 1)) && !q
                then [Event.stderr (diagnostic argv0 base dir)] else []),
            dir ++ NUL :: base⟩
        else Outcome.fault := by
  have hmem : '/' ∈ name := by simp [hname]
  have hk : strrchr name '/' = some dir.length := by
    rw [hname]
    exact strrchr_last dir base '/' hbase
  have hcopy := strncpy_long stack name (PATH_MAX - 1) hlen
  rw [hstack] at hcopy
  have hpre : NUL ∉ name.take (PATH_MAX - 1) := fun h => h0 (List.mem_of_mem_take h)
  have htake : name.take dir.length = dir := by simp [hname]
  have hdrop : name.drop (dir.length + 1) = base := by
    rw [hname, List.drop_append_eq_append_drop]
    simp
  have hset : name.set dir.length NUL = dir ++ NUL :: base := by
    rw [hname, List.set_append_right _ _ (Nat.le_refl _)]
    simp
  by_cases hb : b = NUL
  · have hstr : cstr (strncpy stack name (PATH_MAX - 1)) 0 = some (name.take (PATH_MAX - 1)) := by
      rw [hcopy, hb]
      have := cstr_at [] (name.take (PATH_MAX - 1)) [] hpre
      simpa using this
    simp only [try_find, if_pos hmem, hk, hstr, htake, hdrop, hset, try_print_fst, if_pos hb]
  · have hstr : cstr (strncpy stack name (PATH_MAX - 1)) 0 = none := by
      rw [hcopy]
      have hn : NUL ∉ name.take (PATH_MAX - 1) ++ [b] := by
        intro h
        rcases List.mem_append.mp h with h1 | h1
        · exact hpre h1
        · simp at h1
          exact hb h1.symm
      simpa [cstr] using cstrAux_none _ hn
    simp only [try_find, if_pos hmem, hk, hstr, if_neg hb]

theorem long_query_split :
    long_query = (List.replicate 4089 '/' ++ ['b', 'i', 'n']) ++ '/' :: ['l', 's', 'X', 'Y', 'Z'] := by
  rw [long_query, List.append_assoc]
  rfl

theorem long_query_NUL : NUL ∉ long_query := by
  intro h
  rcases List.mem_append.mp h with h1 | h1
  · exact NUL_ne_slash (List.eq_of_mem_replicate h1)
  · revert h1
    decide

theorem long_query_take : long_query.take (4096 - 1) = long_query_cut := by
  have h : 4096 - 1 = (List.replicate 4089 '/').length + 6 := by rw [List.length_replicate]
  rw [long_query, h, List.take_append]
  rfl

theorem long_query_length : 4096 - 1 ≤ long_query.length := by
  rw [long_query, List.length_append, List.length_replicate]
  decide

theorem stack_last (c : Char) : (List.replicate 4096 c).drop (4096 - 1) = [c] := by
  rw [List.drop_replicate]
  rfl

theorem long_query_cut_ne : long_query_cut ≠ long_query := by
  intro h
  have h1 := congrArg List.length h
  rw [long_query_cut, long_query, List.length_append, List.length_append,
    List.length_replicate] at h1
  revert h1
  decide

theorem fields_head_nonempty (c : Char) (t : List Char) (hc : c ≠ ':') :
    ∀ e, (fields (c :: t)).head? = some e → e ≠ [] := by
  intro e he
  cases hf : fields t with
  | nil => exact absurd hf (fields_ne_nil t)
  | cons e0 es =>
    simp [fields, hc, hf] at he
    subst he
    simp

theorem search_candidates (PATH_MAX : Nat) (heap_before s name : List Char) (hs : NUL ∉ s)
    (hheap : heap_before = [] → ∃ c t, s = c :: t ∧ c ≠ ':') :
    ∃ cands, candidates PATH_MAX (heap_before ++ packed (fields s)) name
        (located heap_before.length (fields s)) = some cands
      ∧ cands.length = s.count ':' + 1 := by
  have h := candidates_defined PATH_MAX name (fields s) heap_before (fields_no_NUL s hs)
    (by
      intro h0
      obtain ⟨c, t, hct, hc⟩ := hheap h0
      rw [hct]
      exact fields_head_nonempty c t hc)
  obtain ⟨cands, h1, h2⟩ := h
  exact ⟨cands, h1, by rw [h2, fields_length]⟩

/-! ## Runs over any memory -/

theorem well_reported_nil (fs : List Char → Bool) (qn : List Char) (pn q : Bool) :
    well_reported fs qn pn q [] := by
  cases q <;> simp [well_reported, printed, tested]

theorem well_reported_append (fs : List Char → Bool) (qn : List Char) (pn q : Bool)
    (a b : List Event) (ha : well_reported fs qn pn q a) (hb : well_reported fs qn pn q b) :
    well_reported fs qn pn q (a ++ b) := by
  unfold well_reported at ha hb ⊢
  rw [printed_append, tested_append, ha, hb]
  cases q <;> simp

theorem well_reported_try_print (fs : List Char → Bool) (path qn : List Char) (pn q : Bool) :
    well_reported fs qn pn q (try_print fs path qn pn q).2 := by
  unfold well_reported
  rw [try_print_printed, try_print_tested]
  cases q <;> cases hf : fs path <;> simp [hf]

theorem well_reported_stderr (fs : List Char → Bool) (qn t : List Char) (pn q : Bool) :
    well_reported fs qn pn q [Event.stderr t] := by
  cases q <;> simp [well_reported, printed, tested]

theorem try_find_loop_events (PATH_MAX : Nat) (fs : List Char → Bool) (mem name : List Char)
    (stop : Nat) (ta pn q : Bool) (fuel : Nat) :
    ∀ (path : Nat) (success : Bool) (ex : LoopExit),
      try_find_loop PATH_MAX fs mem name stop ta pn q fuel path success = Outcome.ok ex →
      diagnosed ex.events = [] ∧ well_reported fs name pn q ex.events := by
  induction fuel with
  | zero =>
    intro path success ex h
    rw [try_find_loop] at h
    by_cases hlt : path < stop
    · rw [if_pos hlt] at h
      cases h
    · rw [if_neg hlt] at h
      cases h
      exact ⟨rfl, well_reported_nil fs name pn q⟩
  | succ fuel ih =>
    intro path success ex h
    rw [try_find_loop] at h
    by_cases hlt : path < stop
    · rw [if_pos hlt] at h
      cases hc : create_full_path PATH_MAX mem path name with
      | none =>
        rw [hc] at h
        cases h
      | some c =>
        rw [hc] at h
        simp only [] at h
        have hd := try_print_diagnosed fs c name pn q
        have hw := well_reported_try_print fs c name pn q
        by_cases hret : ((success || (try_print fs c name pn q).1) && !ta) = true
        · rw [if_pos hret] at h
          cases h
          exact ⟨hd, hw⟩
        · rw [if_neg hret] at h
          cases hn : strlen mem path with
          | none =>
            rw [hn] at h
            cases h
          | some n =>
            rw [hn] at h
            simp only [] at h
            cases hrec : try_find_loop PATH_MAX fs mem name stop ta pn q fuel (path + n + 1)
                (success || (try_print fs c name pn q).1) with
            | ok ex1 =>
              obtain ⟨h1, h2⟩ := ih _ _ _ hrec
              rw [hrec] at h
              cases ex1 with
              | returned ev =>
                cases h
                simp only [LoopExit.events] at h1 h2 ⊢
                exact ⟨by rw [diagnosed_append, hd, h1]; rfl,
                  well_reported_append fs name pn q _ _ hw h2⟩
              | finished su ev =>
                cases h
                simp only [LoopExit.events] at h1 h2 ⊢
                exact ⟨by rw [diagnosed_append, hd, h1]; rfl,
                  well_reported_append fs name pn q _ _ hw h2⟩
            | fault =>
              rw [hrec] at h
              cases h
            | outOfFuel =>
              rw [hrec] at h
              cases h
    · rw [if_neg hlt] at h
      cases h
      exact ⟨rfl, well_reported_nil fs name pn q⟩

theorem last_sep (c : Char) (s : List Char) (h : c ∈ s) :
    ∃ a b, s = a ++ c :: b ∧ c ∉ b := by
  induction s with
  | nil => simp at h
  | cons x xs ih =>
    by_cases hxs : c ∈ xs
    · obtain ⟨a, b, hab, hb⟩ := ih hxs
      exact ⟨x :: a, b, by simp [hab], hb⟩
    · have hx : c = x := by
        rcases List.mem_cons.mp h with h1 | h1
        · exact h1
        · exact absurd h1 hxs
      exact ⟨[], xs, by simp [hx], hxs⟩

theorem try_find_events_search (PATH_MAX : Nat) (fs : List Char → Bool)
    (argv0 stack mem name original_path : List Char) (items : Option Nat) (path_size : Nat)
    (ta pn q : Bool) (r : FindResult) (hname : '/' ∉ name)
    (h : try_find PATH_MAX fs argv0 stack mem name items original_path path_size ta pn q
      = Outcome.ok r) :
    well_reported fs name pn q r.events ∧
    diagnosed r.events
      = (if r.success || q then [] else [diagnostic argv0 name original_path]) := by
  simp only [try_find, if_neg hname] at h
  cases items with
  | none =>
    simp only [] at h
    by_cases hz : path_size = 0
    · rw [if_pos hz] at h
      cases h
      cases q <;> simp [well_reported, printed, tested, diagnosed]
    · rw [if_neg hz] at h
      cases h
  | some base =>
    simp only [] at h
    cases hloop : try_find_loop PATH_MAX fs mem name (base + path_size) ta pn q path_size
        base false with
    | ok ex =>
      obtain ⟨h1, h2⟩ := try_find_loop_events _ _ _ _ _ _ _ _ _ _ _ _ hloop
      rw [hloop] at h
      cases ex with
      | returned ev =>
        cases h
        simp only [LoopExit.events] at h1 h2
        exact ⟨h2, by simp [h1]⟩
      | finished su ev =>
        cases h
        simp only [LoopExit.events] at h1 h2
        constructor
        · apply well_reported_append _ _ _ _ _ _ h2
          cases su <;> cases q <;>
            simp [well_reported_nil, well_reported_stderr]
        · rw [diagnosed_append, h1]
          cases su <;> cases q <;> simp [diagnosed]
    | fault =>
      rw [hloop] at h
      cases h
    | outOfFuel =>
      rw [hloop] at h
      cases h

theorem try_find_events_slash (PATH_MAX : Nat) (fs : List Char → Bool)
    (argv0 stack mem name original_path dir base : List Char) (items : Option Nat)
    (path_size : Nat) (ta pn q : Bool) (r : FindResult)
    (hname : name = dir ++ '/' :: base) (hbase : '/' ∉ base)
    (h : try_find PATH_MAX fs argv0 stack mem name items original_path path_size ta pn q
      = Outcome.ok r) :
    well_reported fs base pn q r.events ∧
    diagnosed r.events = (if r.success || q then [] else [diagnostic argv0 base dir]) ∧
    (∃ path, tested r.events = [path] ∧ r.success = fs path) := by
  have hmem : '/' ∈ name := by simp [hname]
  have hk : strrchr name '/' = some dir.length := by
    rw [hname]
    exact strrchr_last dir base '/' hbase
  have htake : name.take dir.length = dir := by simp [hname]
  have hdrop : name.drop (dir.length + 1) = base := by
    rw [hname, List.drop_append_eq_append_drop]
    simp
  simp only [try_find, if_pos hmem, hk, htake, hdrop] at h
  cases hstr : cstr (strncpy stack name (PATH_MAX - 1)) 0 with
  | none =>
    rw [hstr] at h
    cases h
  | some path =>
    rw [hstr] at h
    cases h
    simp only [try_print_fst]
    refine ⟨?_, ?_, path, ?_, rfl⟩
    · apply well_reported_append _ _ _ _ _ _ (well_reported_try_print fs path base pn q)
      rcases Bool.eq_false_or_eq_true (fs path) with hf | hf <;> cases q <;>
        simp [hf, well_reported_nil, well_reported_stderr]
    · rw [diagnosed_append, try_print_diagnosed]
      rcases Bool.eq_false_or_eq_true (fs path) with hf | hf <;> cases q <;>
        simp [hf, diagnosed]
    · rw [tested_append, try_print_tested]
      rcases Bool.eq_false_or_eq_true (fs path) with hf | hf <;> cases q <;>
        simp [hf, tested]

theorem try_find_returns (PATH_MAX : Nat) (fs : List Char → Bool)
    (argv0 stack heap_before s name original_path : List Char) (ta pn q : Bool)
    (hs : NUL ∉ s) (h0 : NUL ∉ name)
    (hheap : heap_before = [] → ∃ c t, s = c :: t ∧ c ≠ ':')
    (hshort : '/' ∈ name → name.length + 1 < PATH_MAX) :
    ∃ r, try_find PATH_MAX fs argv0 stack (heap_before ++ packed (fields s)) name
      (some heap_before.length) original_path (s.length + 1) ta pn q = Outcome.ok r := by
  by_cases hname : '/' ∈ name
  · obtain ⟨dir, base, hdb, hbase⟩ := last_sep '/' name hname
    exact ⟨_, try_find_slash PATH_MAX fs argv0 stack _ name original_path dir base _ _ ta pn q
      hdb hbase h0 (hshort hname)⟩
  · obtain ⟨cands, hc, _⟩ := search_candidates PATH_MAX heap_before s name hs hheap
    obtain ⟨r, hr, _⟩ := try_find_search PATH_MAX fs argv0 stack heap_before s name
      original_path ta pn q cands hs hname hc
    exact ⟨r, hr⟩

/-! ## main -/

theorem main_loop_spec (PATH_MAX : Nat) (fs : List Char → Bool) (argv0 : List Char)
    (stack : Nat → List Char) (mem : List Char) (items : Option Nat)
    (original_path : List Char) (size : Nat) (ta pn q : Bool) (args : List (List Char)) :
    ∀ (i errors attempts : Nat) (t : RunResult),
      main_loop PATH_MAX fs argv0 stack mem items original_path size ta pn q args
        i errors attempts = Outcome.ok t →
      ∃ rs : List FindResult,
        List.Forall₂ (fun arg r => ∃ j, try_find PATH_MAX fs argv0 (stack j) mem arg items
          original_path size ta pn q = Outcome.ok r) args rs ∧
        t.errors = errors + rs.countP (fun r => !r.success) ∧
        t.attempts = attempts + args.length ∧
        t.events = (rs.map FindResult.events).flatten ∧
        t.args_after = rs.map FindResult.name_after := by
  induction args with
  | nil =>
    intro i errors attempts t h
    rw [main_loop] at h
    cases h
    exact ⟨[], List.Forall₂.nil, rfl, rfl, rfl, rfl⟩
  | cons arg rest ih =>
    intro i errors attempts t h
    rw [main_loop] at h
    cases hr : try_find PATH_MAX fs argv0 (stack i) mem arg items original_path size
        ta pn q with
    | ok r =>
      rw [hr] at h
      simp only [] at h
      cases hrec : main_loop PATH_MAX fs argv0 stack mem items original_path size ta pn q
          rest (i + 1) (if r.success = true then errors else errors + 1) (attempts + 1) with
      | ok t1 =>
        rw [hrec] at h
        cases h
        obtain ⟨rs, h1, h2, h3, h4, h5⟩ := ih _ _ _ _ hrec
        refine ⟨r :: rs, List.Forall₂.cons ⟨i, hr⟩ h1, ?_, ?_, ?_, ?_⟩
        · simp only [h2, List.countP_cons]
          rcases Bool.eq_false_or_eq_true r.success with hs | hs
          · simp [hs]
          · simp [hs]
            omega
        · simp only [h3, List.length_cons]
          omega
        · simp [h4]
        · simp [h5]
      | fault =>
        rw [hrec] at h
        cases h
      | outOfFuel =>
        rw [hrec] at h
        cases h
    | fault =>
      rw [hr] at h
      cases h
    | outOfFuel =>
      rw [hr] at h
      cases h

theorem main_loop_returns (PATH_MAX : Nat) (fs : List Char → Bool) (argv0 : List Char)
    (stack : Nat → List Char) (mem : List Char) (items : Option Nat)
    (original_path : List Char) (size : Nat) (ta pn q : Bool) (args : List (List Char))
    (hall : ∀ arg ∈ args, ∀ j, ∃ r, try_find PATH_MAX fs argv0 (stack j) mem arg items
      original_path size ta pn q = Outcome.ok r) :
    ∀ (i errors attempts : Nat), ∃ t,
      main_loop PATH_MAX fs argv0 stack mem items original_path size ta pn q args
        i errors attempts = Outcome.ok t := by
  induction args with
  | nil =>
    intro i errors attempts
    exact ⟨_, rfl⟩
  | cons arg rest ih =>
    intro i errors attempts
    obtain ⟨r, hr⟩ := hall arg (by simp) i
    obtain ⟨t, ht⟩ := ih (fun a ha j => hall a (by simp [ha]) j) (i + 1)
      (if r.success = true then errors else errors + 1) (attempts + 1)
    refine ⟨⟨t.errors, t.attempts, r.events ++ t.events, r.name_after :: t.args_after⟩, ?_⟩
    rw [main_loop, hr]
    simp only []
    rw [ht]

theorem main_resolve_ok (PATH_MAX : Nat) (fs : List Char → Bool) (argv0 : List Char)
    (stack : Nat → List Char) (getenv_PATH : Option (List Char)) (heap_before : List Char)
    (ta pn q : Bool) (args : List (List Char)) (hargs : args ≠ [])
    (hpath : NUL ∉ search_path_string getenv_PATH) :
    main_resolve PATH_MAX fs argv0 stack getenv_PATH true heap_before ta pn q args
      = match main_loop PATH_MAX fs argv0 stack
            (heap_before ++ packed (fields (search_path_string getenv_PATH)))
            (some heap_before.length) (search_path_string getenv_PATH)
            ((search_path_string getenv_PATH).length + 1) ta pn q args 0 0 0 with
        | Outcome.ok t => Outcome.ok (exit_status t.errors t.attempts, t.events)
        | Outcome.fault => Outcome.fault
        | Outcome.outOfFuel => Outcome.outOfFuel := by
  simp only [main_resolve, if_neg hargs, create_path_items_spec _ hpath, List.nil_append]

theorem exit_status_cases (errors attempts : Nat) (hpos : 0 < attempts)
    (hle : errors ≤ attempts) :
    (exit_status errors attempts = 0 ↔ errors = 0) ∧
    (exit_status errors attempts = 1 ↔ 0 < errors ∧ errors < attempts) ∧
    (exit_status errors attempts = 2 ↔ errors = attempts) := by
  unfold exit_status WHICH_NONE WHICH_NOT_ALL
  by_cases h1 : errors = attempts
  · rw [if_pos h1]
    refine ⟨⟨?_, ?_⟩, ⟨?_, ?_⟩, ⟨?_, ?_⟩⟩ <;> intro h <;> omega
  · rw [if_neg h1]
    by_cases h2 : errors = 0
    · rw [if_neg (by simpa using h2)]
      refine ⟨⟨?_, ?_⟩, ⟨?_, ?_⟩, ⟨?_, ?_⟩⟩ <;> intro h <;> omega
    · rw [if_pos h2]
      refine ⟨⟨?_, ?_⟩, ⟨?_, ?_⟩, ⟨?_, ?_⟩⟩ <;> intro h <;> omega

theorem main_resolve_returns (PATH_MAX : Nat) (fs : List Char → Bool) (argv0 : List Char)
    (stack : Nat → List Char) (getenv_PATH : Option (List Char)) (heap_before : List Char)
    (ta pn q : Bool) (args : List (List Char)) (hargs : args ≠ [])
    (hpath : NUL ∉ search_path_string getenv_PATH)
    (hnul : ∀ arg ∈ args, NUL ∉ arg)
    (hheap : heap_before = [] → ∃ c t, search_path_string getenv_PATH = c :: t ∧ c ≠ ':')
    (hshort : ∀ arg ∈ args, '/' ∈ arg → arg.length + 1 < PATH_MAX) :
    ∃ status ev, main_resolve PATH_MAX fs argv0 stack getenv_PATH true heap_before ta pn q args
      = Outcome.ok (status, ev) := by
  obtain ⟨t, ht⟩ := main_loop_returns PATH_MAX fs argv0 stack
    (heap_before ++ packed (fields (search_path_string getenv_PATH)))
    (some heap_before.length) (search_path_string getenv_PATH)
    ((search_path_string getenv_PATH).length + 1) ta pn q args
    (fun arg ha j => try_find_returns PATH_MAX fs argv0 (stack j) heap_before
      (search_path_string getenv_PATH) arg (search_path_string getenv_PATH) ta pn q
      hpath (hnul arg ha) hheap (hshort arg ha)) 0 0 0
  refine ⟨exit_status t.errors t.attempts, t.events, ?_⟩
  rw [main_resolve_ok PATH_MAX fs argv0 stack getenv_PATH heap_before ta pn q args hargs hpath,
    ht]

theorem countP_not_success (rs : List FindResult) :
    (rs.countP (fun r => !r.success) = 0 ↔ ∀ r ∈ rs, r.success = true) ∧
    (rs.countP (fun r => !r.success) = rs.length ↔ ∀ r ∈ rs, r.success = false) ∧
    (0 < rs.countP (fun r => !r.success) ∧ rs.countP (fun r => !r.success) < rs.length
      ↔ (∃ r ∈ rs, r.success = true) ∧ (∃ r ∈ rs, r.success = false)) := by
  have hle : rs.countP (fun r => !r.success) ≤ rs.length := List.countP_le_length _
  have h1 : rs.countP (fun r => !r.success) = 0 ↔ ∀ r ∈ rs, r.success = true := by
    rw [List.countP_eq_zero]
    simp
  have h2 : rs.countP (fun r => !r.success) = rs.length ↔ ∀ r ∈ rs, r.success = false := by
    rw [List.countP_eq_length]
    simp
  refine ⟨h1, h2, ?_⟩
  constructor
  · rintro ⟨ha, hb⟩
    have n1 : ¬ rs.countP (fun r => !r.success) = 0 := by omega
    have n2 : ¬ rs.countP (fun r => !r.success) = rs.length := by omega
    rw [h1] at n1
    rw [h2] at n2
    push_neg at n1 n2
    obtain ⟨x, hx, hx2⟩ := n1
    obtain ⟨y, hy, hy2⟩ := n2
    exact ⟨⟨y, hy, by simpa using hy2⟩, ⟨x, hx, by simpa using hx2⟩⟩
  · rintro ⟨⟨y, hy, hy2⟩, ⟨x, hx, hx2⟩⟩
    have n1 : ¬ rs.countP (fun r => !r.success) = 0 := by
      rw [h1]
      push_neg
      exact ⟨x, hx, by simp [hx2]⟩
    have n2 : ¬ rs.countP (fun r => !r.success) = rs.length := by
      rw [h2]
      push_neg
      exact ⟨y, hy, by simp [hy2]⟩
    omega

theorem try_find_quiet (PATH_MAX : Nat) (fs : List Char → Bool)
    (argv0 stack mem name original_path : List Char) (items : Option Nat) (path_size : Nat)
    (ta pn : Bool) (r : FindResult)
    (h : try_find PATH_MAX fs argv0 stack mem name items original_path path_size ta pn true
      = Outcome.ok r) :
    printed r.events = [] ∧ diagnosed r.events = [] := by
  by_cases hname : '/' ∈ name
  · obtain ⟨dir, base, hdb, hbase⟩ := last_sep '/' name hname
    obtain ⟨h1, h2, _⟩ := try_find_events_slash _ _ _ _ _ _ _ dir base _ _ _ _ _ r hdb hbase h
    exact ⟨by simpa [well_reported] using h1, by simpa using h2⟩
  · obtain ⟨h1, h2⟩ := try_find_events_search _ _ _ _ _ _ _ _ _ _ _ _ r hname h
    exact ⟨by simpa [well_reported] using h1, by simpa using h2⟩

theorem flatten_quiet (PATH_MAX : Nat) (fs : List Char → Bool) (argv0 : List Char)
    (stack : Nat → List Char) (mem : List Char) (items : Option Nat)
    (original_path : List Char) (size : Nat) (ta pn : Bool)
    (args : List (List Char)) (rs : List FindResult)
    (h : List.Forall₂ (fun arg r => ∃ j, try_find PATH_MAX fs argv0 (stack j) mem arg items
      original_path size ta pn true = Outcome.ok r) args rs) :
    printed (rs.map FindResult.events).flatten = [] ∧
    diagnosed (rs.map FindResult.events).flatten = [] := by
  induction h with
  | nil => exact ⟨rfl, rfl⟩
  | cons hr _ ih =>
    obtain ⟨j, hj⟩ := hr
    obtain ⟨h1, h2⟩ := try_find_quiet _ _ _ _ _ _ _ _ _ _ _ _ hj
    rw [List.map_cons, List.flatten_cons, printed_append, diagnosed_append, h1, h2,
      ih.1, ih.2]
    exact ⟨rfl, rfl⟩

/-! ## Option parsing -/

theorem is_option_shape (arg : List Char) (h : is_option arg = true) :
    ∃ c cs, arg = '-' :: c :: cs ∧ ¬ (c = '-' ∧ cs = []) := by
  cases arg with
  | nil => simp [is_option] at h
  | cons x xs =>
    cases xs with
    | nil => simp [is_option] at h
    | cons c cs =>
      by_cases hx : x = '-'
      · subst hx
        refine ⟨c, cs, rfl, ?_⟩
        have h1 : ¬ c = '-' ∨ ¬ cs = [] := by simpa [is_option] using h
        rintro ⟨e1, e2⟩
        rcases h1 with h1 | h1
        · exact h1 e1
        · exact h1 e2
      · simp [is_option, hx] at h

theorem getopt_cluster_ok (cs : List Char) :
    ∀ (ta pn q : Bool), (∀ c ∈ cs, c = 'a' ∨ c = 'p' ∨ c = 's') →
      ∃ f, getopt_cluster cs ta pn q = Except.ok f := by
  induction cs with
  | nil => intro ta pn q _; exact ⟨_, rfl⟩
  | cons c cs ih =>
    intro ta pn q h
    have hcs : ∀ x ∈ cs, x = 'a' ∨ x = 'p' ∨ x = 's' := fun x hx => h x (by simp [hx])
    rw [getopt_cluster]
    rcases h c (by simp) with h1 | h1 | h1
    · rw [if_pos h1]
      exact ih _ _ _ hcs
    · have n1 : c ≠ 'a' := by rw [h1]; decide
      rw [if_neg n1, if_pos h1]
      exact ih _ _ _ hcs
    · have n1 : c ≠ 'a' := by rw [h1]; decide
      have n2 : c ≠ 'p' := by rw [h1]; decide
      rw [if_neg n1, if_neg n2, if_pos h1]
      exact ih _ _ _ hcs

theorem getopt_cluster_bad (cs : List Char) :
    ∀ (ta pn q : Bool), (∃ c ∈ cs, ¬ (c = 'a' ∨ c = 'p' ∨ c = 's')) →
      ∃ c ∈ cs, ¬ (c = 'a' ∨ c = 'p' ∨ c = 's') ∧
        getopt_cluster cs ta pn q = Except.error c := by
  induction cs with
  | nil => intro ta pn q h; simp at h
  | cons c cs ih =>
    intro ta pn q h
    by_cases hc : c = 'a' ∨ c = 'p' ∨ c = 's'
    · have hrest : ∃ x ∈ cs, ¬ (x = 'a' ∨ x = 'p' ∨ x = 's') := by
        obtain ⟨x, hx, hx2⟩ := h
        rcases List.mem_cons.mp hx with h1 | h1
        · rw [h1] at hx2
          exact absurd hc hx2
        · exact ⟨x, h1, hx2⟩
      rw [getopt_cluster]
      rcases hc with h1 | h1 | h1
      · rw [if_pos h1]
        obtain ⟨x, hx, hx2, hx3⟩ := ih true pn q hrest
        exact ⟨x, by simp [hx], hx2, hx3⟩
      · have n1 : c ≠ 'a' := by rw [h1]; decide
        rw [if_neg n1, if_pos h1]
        obtain ⟨x, hx, hx2, hx3⟩ := ih ta true q hrest
        exact ⟨x, by simp [hx], hx2, hx3⟩
      · have n1 : c ≠ 'a' := by rw [h1]; decide
        have n2 : c ≠ 'p' := by rw [h1]; decide
        rw [if_neg n1, if_neg n2, if_pos h1]
        obtain ⟨x, hx, hx2, hx3⟩ := ih ta pn true hrest
        exact ⟨x, by simp [hx], hx2, hx3⟩
    · refine ⟨c, by simp, hc, ?_⟩
      have n1 : c ≠ 'a' := fun e => hc (Or.inl e)
      have n2 : c ≠ 'p' := fun e => hc (Or.inr (Or.inl e))
      have n3 : c ≠ 's' := fun e => hc (Or.inr (Or.inr e))
      rw [getopt_cluster, if_neg n1, if_neg n2, if_neg n3]

theorem recognized_chars (arg : List Char) (h : recognized arg = true) :
    ∃ c cs, arg = '-' :: c :: cs ∧ ¬ (c = '-' ∧ cs = []) ∧
      ∀ x ∈ c :: cs, x = 'a' ∨ x = 'p' ∨ x = 's' := by
  simp only [recognized, Bool.and_eq_true] at h
  obtain ⟨c, cs, harg, hnot⟩ := is_option_shape arg h.1
  refine ⟨c, cs, harg, hnot, ?_⟩
  have h2 := h.2
  rw [harg] at h2
  simpa [or_assoc] using h2

theorem unrecognized_char (arg : List Char) (h1 : is_option arg = true)
    (h2 : recognized arg = false) :
    ∃ c cs, arg = '-' :: c :: cs ∧ ¬ (c = '-' ∧ cs = []) ∧
      ∃ x ∈ c :: cs, ¬ (x = 'a' ∨ x = 'p' ∨ x = 's') := by
  obtain ⟨c, cs, harg, hnot⟩ := is_option_shape arg h1
  refine ⟨c, cs, harg, hnot, ?_⟩
  simp only [recognized, h1, Bool.true_and] at h2
  rw [harg] at h2
  by_contra hall
  push_neg at hall
  have : ((('-' :: c :: cs).drop 1).all (fun c => c == 'a' || c == 'p' || c == 's')) = true := by
    simpa [or_assoc] using hall
  rw [this] at h2
  cases h2

theorem getopt_loop_options (opts : List (List Char)) :
    ∀ (ta pn q : Bool), (∀ o ∈ opts, recognized o = true) →
      ∃ ta1 pn1 q1, ∀ rest : List (List Char),
        getopt_loop (opts ++ rest) ta pn q = getopt_loop rest ta1 pn1 q1 := by
  induction opts with
  | nil => intro ta pn q _; exact ⟨ta, pn, q, fun rest => rfl⟩
  | cons o opts ih =>
    intro ta pn q h
    obtain ⟨c, cs, ho, hnot, hall⟩ := recognized_chars o (h o (by simp))
    obtain ⟨f, hf⟩ := getopt_cluster_ok (c :: cs) ta pn q hall
    obtain ⟨ta1, pn1, q1, hrest⟩ := ih f.1 f.2.1 f.2.2 (fun x hx => h x (by simp [hx]))
    refine ⟨ta1, pn1, q1, fun rest => ?_⟩
    rw [ho, List.cons_append, getopt_loop, if_neg hnot, hf]
    exact hrest rest

theorem try_find_null_items (PATH_MAX : Nat) (fs : List Char → Bool)
    (argv0 stack mem name original_path : List Char) (ta pn q : Bool) (hname : '/' ∉ name) :
    try_find PATH_MAX fs argv0 stack mem name none original_path SIZE_MAX ta pn q
      = Outcome.fault := by
  have h : ¬ (SIZE_MAX = 0) := by decide
  simp only [try_find, if_neg hname, if_neg h]

/-! ## The driver loop on a list cut in two -/

theorem main_loop_split (PATH_MAX : Nat) (fs : List Char → Bool) (argv0 : List Char)
    (stack : Nat → List Char) (mem : List Char) (items : Option Nat)
    (original_path : List Char) (size : Nat) (ta pn q : Bool)
    (pre post : List (List Char)) :
    ∀ (i errors attempts : Nat) (t : RunResult),
      main_loop PATH_MAX fs argv0 stack mem items original_path size ta pn q (pre ++ post)
        i errors attempts = Outcome.ok t →
      ∃ t1 t2,
        main_loop PATH_MAX fs argv0 stack mem items original_path size ta pn q pre
          i errors attempts = Outcome.ok t1 ∧
        main_loop PATH_MAX fs argv0 stack mem items original_path size ta pn q post
          (i + pre.length) t1.errors t1.attempts = Outcome.ok t2 ∧
        t.errors = t2.errors ∧ t.attempts = t2.attempts := by
  induction pre with
  | nil =>
    intro i errors attempts t h
    exact ⟨⟨errors, attempts, [], []⟩, t, rfl, by simpa using h, rfl, rfl⟩
  | cons arg pre ih =>
    intro i errors attempts t h
    rw [List.cons_append, main_loop] at h
    cases hr : try_find PATH_MAX fs argv0 (stack i) mem arg items original_path size
        ta pn q with
    | ok r =>
      rw [hr] at h
      simp only [] at h
      cases hrec : main_loop PATH_MAX fs argv0 stack mem items original_path size ta pn q
          (pre ++ post) (i + 1) (if r.success = true then errors else errors + 1)
          (attempts + 1) with
      | ok t0 =>
        rw [hrec] at h
        cases h
        obtain ⟨t1, t2, h1, h2, h3, h4⟩ := ih _ _ _ _ hrec
        have hidx : i + 1 + pre.length = i + (arg :: pre).length := by
          simp only [List.length_cons]
          omega
        rw [hidx] at h2
        refine ⟨⟨t1.errors, t1.attempts, r.events ++ t1.events, r.name_after :: t1.args_after⟩,
          t2, ?_, h2, h3, h4⟩
        rw [main_loop, hr]
        simp only []
        rw [h1]
      | fault =>
        rw [hrec] at h
        cases h
      | outOfFuel =>
        rw [hrec] at h
        cases h
    | fault =>
      rw [hr] at h
      cases h
    | outOfFuel =>
      rw [hr] at h
      cases h

/-! ## The flags and the value returned -/

theorem try_find_loop_stop (PATH_MAX : Nat) (fs : List Char → Bool) (mem name : List Char)
    (stop : Nat) (ta pn q : Bool) (fuel path : Nat) (s0 : Bool) (h : ¬ path < stop) :
    try_find_loop PATH_MAX fs mem name stop ta pn q fuel path s0
      = Outcome.ok (LoopExit.finished s0 []) := by
  cases fuel <;> simp [try_find_loop, h]

theorem try_find_loop_step (PATH_MAX : Nat) (fs : List Char → Bool) (mem name : List Char)
    (stop : Nat) (ta pn q : Bool) (fuel path : Nat) (s0 : Bool) (ex : LoopExit)
    (hlt : path < stop)
    (h : try_find_loop PATH_MAX fs mem name stop ta pn q (fuel + 1) path s0 = Outcome.ok ex) :
    ∃ c, create_full_path PATH_MAX mem path name = some c ∧
      ((((s0 || fs c) && !ta) = true ∧ ex.success = true) ∨
       (((s0 || fs c) && !ta) = false ∧
        ∃ n ex1, strlen mem path = some n ∧
          try_find_loop PATH_MAX fs mem name stop ta pn q fuel (path + n + 1) (s0 || fs c)
            = Outcome.ok ex1 ∧
          ex.success = ex1.success)) := by
  rw [try_find_loop, if_pos hlt] at h
  cases hc : create_full_path PATH_MAX mem path name with
  | none =>
    rw [hc] at h
    cases h
  | some c =>
    rw [hc] at h
    simp only [try_print_fst] at h
    refine ⟨c, rfl, ?_⟩
    by_cases hret : ((s0 || fs c) && !ta) = true
    · rw [if_pos hret] at h
      cases h
      exact Or.inl ⟨hret, rfl⟩
    · rw [if_neg hret] at h
      right
      refine ⟨by simpa using hret, ?_⟩
      cases hn : strlen mem path with
      | none =>
        rw [hn] at h
        cases h
      | some n =>
        rw [hn] at h
        simp only [] at h
        cases hrec : try_find_loop PATH_MAX fs mem name stop ta pn q fuel (path + n + 1)
            (s0 || fs c) with
        | ok ex1 =>
          rw [hrec] at h
          refine ⟨n, ex1, rfl, hrec, ?_⟩
          cases ex1 with
          | returned ev =>
            cases h
            rfl
          | finished su ev =>
            cases h
            rfl
        | fault =>
          rw [hrec] at h
          cases h
        | outOfFuel =>
          rw [hrec] at h
          cases h

theorem try_find_loop_success_kept (PATH_MAX : Nat) (fs : List Char → Bool)
    (mem name : List Char) (stop : Nat) (ta pn q : Bool) (fuel : Nat) :
    ∀ (path : Nat) (ex : LoopExit),
      try_find_loop PATH_MAX fs mem name stop ta pn q fuel path true = Outcome.ok ex →
      ex.success = true := by
  induction fuel with
  | zero =>
    intro path ex h
    by_cases hlt : path < stop
    · simp [try_find_loop, hlt] at h
    · rw [try_find_loop_stop _ _ _ _ _ _ _ _ _ _ _ hlt] at h
      cases h
      rfl
  | succ fuel ih =>
    intro path ex h
    by_cases hlt : path < stop
    · obtain ⟨c, _, hcase⟩ := try_find_loop_step _ _ _ _ _ _ _ _ _ _ _ _ hlt h
      rcases hcase with ⟨_, hs⟩ | ⟨_, n, ex1, _, hrec, hs⟩
      · exact hs
      · rw [hs]
        rw [Bool.true_or] at hrec
        exact ih _ _ hrec
    · rw [try_find_loop_stop _ _ _ _ _ _ _ _ _ _ _ hlt] at h
      cases h
      rfl

theorem try_find_loop_flags (PATH_MAX : Nat) (fs : List Char → Bool)
    (mem name : List Char) (stop : Nat) (ta pn q ta1 pn1 q1 : Bool) (fuel : Nat) :
    ∀ (path : Nat) (s0 : Bool) (ex ex1 : LoopExit),
      try_find_loop PATH_MAX fs mem name stop ta pn q fuel path s0 = Outcome.ok ex →
      try_find_loop PATH_MAX fs mem name stop ta1 pn1 q1 fuel path s0 = Outcome.ok ex1 →
      ex.success = ex1.success := by
  induction fuel with
  | zero =>
    intro path s0 ex ex1 h h1
    by_cases hlt : path < stop
    · simp [try_find_loop, hlt] at h
    · rw [try_find_loop_stop _ _ _ _ _ _ _ _ _ _ _ hlt] at h h1
      cases h
      cases h1
      rfl
  | succ fuel ih =>
    intro path s0 ex ex1 h h1
    by_cases hlt : path < stop
    · obtain ⟨c, hc, hcase⟩ := try_find_loop_step _ _ _ _ _ _ _ _ _ _ _ _ hlt h
      obtain ⟨c1, hc1, hcase1⟩ := try_find_loop_step _ _ _ _ _ _ _ _ _ _ _ _ hlt h1
      rw [hc] at hc1
      simp only [Option.some.injEq] at hc1
      subst hc1
      rcases hcase with ⟨hr, hs⟩ | ⟨hr, n, e2, hn, hrec, hs⟩
      · rcases hcase1 with ⟨_, hs1⟩ | ⟨_, n1, e3, _, hrec1, hs1⟩
        · rw [hs, hs1]
        · have hsucc : (s0 || fs c) = true := by
            rcases Bool.eq_false_or_eq_true (s0 || fs c) with hh | hh
            · exact hh
            · rw [hh] at hr
              simp at hr
          rw [hsucc] at hrec1
          rw [hs, hs1, try_find_loop_success_kept _ _ _ _ _ _ _ _ _ _ _ hrec1]
      · rcases hcase1 with ⟨hr1, hs1⟩ | ⟨_, n1, e3, hn1, hrec1, hs1⟩
        · have hsucc : (s0 || fs c) = true := by
            rcases Bool.eq_false_or_eq_true (s0 || fs c) with hh | hh
            · exact hh
            · rw [hh] at hr1
              simp at hr1
          rw [hsucc] at hrec
          rw [hs, hs1, try_find_loop_success_kept _ _ _ _ _ _ _ _ _ _ _ hrec]
        · rw [hn] at hn1
          simp only [Option.some.injEq] at hn1
          subst hn1
          rw [hs, hs1]
          exact ih _ _ _ _ hrec hrec1
    · rw [try_find_loop_stop _ _ _ _ _ _ _ _ _ _ _ hlt] at h h1
      cases h
      cases h1
      rfl

theorem try_find_flags (PATH_MAX : Nat) (fs : List Char → Bool)
    (argv0 stack mem name original_path : List Char) (items : Option Nat) (path_size : Nat)
    (ta pn q ta1 pn1 q1 : Bool) (r r1 : FindResult)
    (h : try_find PATH_MAX fs argv0 stack mem name items original_path path_size ta pn q
      = Outcome.ok r)
    (h1 : try_find PATH_MAX fs argv0 stack mem name items original_path path_size ta1 pn1 q1
      = Outcome.ok r1) :
    r.success = r1.success := by
  by_cases hname : '/' ∈ name
  · simp only [try_find, if_pos hname] at h h1
    cases hk : strrchr name '/' with
    | none =>
      rw [hk] at h
      cases h
    | some k =>
      rw [hk] at h h1
      simp only [] at h h1
      cases hstr : cstr (strncpy stack name (PATH_MAX - 1)) 0 with
      | none =>
        rw [hstr] at h
        cases h
      | some path =>
        rw [hstr] at h h1
        cases h
        cases h1
        rfl
  · simp only [try_find, if_neg hname] at h h1
    cases items with
    | none =>
      simp only [] at h h1
      by_cases hz : path_size = 0
      · rw [if_pos hz] at h h1
        cases h
        cases h1
        rfl
      · rw [if_neg hz] at h
        cases h
    | some base =>
      simp only [] at h h1
      cases hloop : try_find_loop PATH_MAX fs mem name (base + path_size) ta pn q path_size
          base false with
      | ok ex =>
        cases hloop1 : try_find_loop PATH_MAX fs mem name (base + path_size) ta1 pn1 q1
            path_size base false with
        | ok ex1 =>
          have hs := try_find_loop_flags _ _ _ _ _ _ _ _ _ _ _ _ _ _ _ _ hloop hloop1
          rw [hloop] at h
          rw [hloop1] at h1
          cases ex <;> cases ex1 <;> cases h <;> cases h1 <;>
            simp [LoopExit.success] at hs ⊢ <;> exact hs
        | fault =>
          rw [hloop1] at h1
          cases h1
        | outOfFuel =>
          rw [hloop1] at h1
          cases h1
      | fault =>
        rw [hloop] at h
        cases h
      | outOfFuel =>
        rw [hloop] at h
        cases h

theorem try_find_name_after (PATH_MAX : Nat) (fs : List Char → Bool)
    (argv0 stack mem name original_path : List Char) (items : Option Nat) (path_size : Nat)
    (ta pn q : Bool) (r : FindResult)
    (h : try_find PATH_MAX fs argv0 stack mem name items original_path path_size ta pn q
      = Outcome.ok r) :
    ('/' ∉ name → r.name_after = name) ∧
    (∀ dir base, name = dir ++ '/' :: base → '/' ∉ base →
      r.name_after = dir ++ NUL :: base) := by
  constructor
  · intro hname
    simp only [try_find, if_neg hname] at h
    cases items with
    | none =>
      simp only [] at h
      by_cases hz : path_size = 0
      · rw [if_pos hz] at h
        cases h
        rfl
      · rw [if_neg hz] at h
        cases h
    | some base =>
      simp only [] at h
      cases hloop : try_find_loop PATH_MAX fs mem name (base + path_size) ta pn q path_size
          base false with
      | ok ex =>
        rw [hloop] at h
        cases ex <;> cases h <;> rfl
      | fault =>
        rw [hloop] at h
        cases h
      | outOfFuel =>
        rw [hloop] at h
        cases h
  · intro dir base hname hbase
    have hmem : '/' ∈ name := by simp [hname]
    have hk : strrchr name '/' = some dir.length := by
      rw [hname]
      exact strrchr_last dir base '/' hbase
    have hset : name.set dir.length NUL = dir ++ NUL :: base := by
      rw [hname, List.set_append_right _ _ (Nat.le_refl _)]
      simp
    simp only [try_find, if_pos hmem, hk, hset] at h
    cases hstr : cstr (strncpy stack name (PATH_MAX - 1)) 0 with
    | none =>
      rw [hstr] at h
      cases h
    | some path =>
      rw [hstr] at h
      cases h
      rfl

theorem main_loop_flags (PATH_MAX : Nat) (fs : List Char → Bool) (argv0 : List Char)
    (stack : Nat → List Char) (mem : List Char) (items : Option Nat)
    (original_path : List Char) (size : Nat) (ta pn q ta1 pn1 q1 : Bool)
    (args : List (List Char)) :
    ∀ (i errors attempts : Nat) (t t1 : RunResult),
      main_loop PATH_MAX fs argv0 stack mem items original_path size ta pn q args
        i errors attempts = Outcome.ok t →
      main_loop PATH_MAX fs argv0 stack mem items original_path size ta1 pn1 q1 args
        i errors attempts = Outcome.ok t1 →
      t.errors = t1.errors ∧ t.attempts = t1.attempts := by
  induction args with
  | nil =>
    intro i errors attempts t t1 h h1
    rw [main_loop] at h h1
    cases h
    cases h1
    exact ⟨rfl, rfl⟩
  | cons arg rest ih =>
    intro i errors attempts t t1 h h1
    rw [main_loop] at h h1
    cases hr : try_find PATH_MAX fs argv0 (stack i) mem arg items original_path size
        ta pn q with
    | ok r =>
      cases hr1 : try_find PATH_MAX fs argv0 (stack i) mem arg items original_path size
          ta1 pn1 q1 with
      | ok r1 =>
        have hs := try_find_flags _ _ _ _ _ _ _ _ _ _ _ _ _ _ _ _ _ hr hr1
        rw [hr] at h
        rw [hr1] at h1
        simp only [] at h h1
        rw [← hs] at h1
        cases hrec : main_loop PATH_MAX fs argv0 stack mem items original_path size ta pn q
            rest (i + 1) (if r.success = true then errors else errors + 1) (attempts + 1) with
        | ok t2 =>
          cases hrec1 : main_loop PATH_MAX fs argv0 stack mem items original_path size
              ta1 pn1 q1 rest (i + 1) (if r.success = true then errors else errors + 1)
              (attempts + 1) with
          | ok t3 =>
            rw [hrec] at h
            rw [hrec1] at h1
            cases h
            cases h1
            exact ih _ _ _ t2 t3 hrec hrec1
          | fault =>
            rw [hrec1] at h1
            cases h1
          | outOfFuel =>
            rw [hrec1] at h1
            cases h1
        | fault =>
          rw [hrec] at h
          cases h
        | outOfFuel =>
          rw [hrec] at h
          cases h
      | fault =>
        rw [hr1] at h1
        cases h1
      | outOfFuel =>
        rw [hr1] at h1
        cases h1
    | fault =>
      rw [hr] at h
      cases h
    | outOfFuel =>
      rw [hr] at h
      cases h

theorem main_resolve_flags (PATH_MAX : Nat) (fs : List Char → Bool) (argv0 : List Char)
    (stack : Nat → List Char) (getenv_PATH : Option (List Char)) (malloc_ok : Bool)
    (heap_before : List Char) (ta pn q ta1 pn1 q1 : Bool) (args : List (List Char))
    (status status1 : Nat) (ev ev1 : List Event)
    (h : main_resolve PATH_MAX fs argv0 stack getenv_PATH malloc_ok heap_before ta pn q args
      = Outcome.ok (status, ev))
    (h1 : main_resolve PATH_MAX fs argv0 stack getenv_PATH malloc_ok heap_before ta1 pn1 q1
      args = Outcome.ok (status1, ev1)) :
    status = status1 := by
  by_cases hargs : args = []
  · simp only [main_resolve, if_pos hargs] at h h1
    cases h
    cases h1
    rfl
  · simp only [main_resolve, if_neg hargs] at h h1
    cases hcp : create_path_items malloc_ok (search_path_string getenv_PATH) with
    | ok created =>
      rw [hcp] at h h1
      cases created with
      | none =>
        simp only [] at h h1
        cases hl : main_loop PATH_MAX fs argv0 stack heap_before none
            (search_path_string getenv_PATH) SIZE_MAX ta pn q args 0 0 0 with
        | ok t =>
          cases hl1 : main_loop PATH_MAX fs argv0 stack heap_before none
              (search_path_string getenv_PATH) SIZE_MAX ta1 pn1 q1 args 0 0 0 with
          | ok t1 =>
            obtain ⟨he, ha⟩ := main_loop_flags _ _ _ _ _ _ _ _ _ _ _ _ _ _ _ _ _ _ _ _ hl hl1
            rw [hl] at h
            rw [hl1] at h1
            cases h
            cases h1
            rw [he, ha]
          | fault =>
            rw [hl1] at h1
            cases h1
          | outOfFuel =>
            rw [hl1] at h1
            cases h1
        | fault =>
          rw [hl] at h
          cases h
        | outOfFuel =>
          rw [hl] at h
          cases h
      | some bs =>
        obtain ⟨buf, size⟩ := bs
        simp only [] at h h1
        cases hl : main_loop PATH_MAX fs argv0 stack (heap_before ++ buf)
            (some heap_before.length) (search_path_string getenv_PATH) size ta pn q args
            0 0 0 with
        | ok t =>
          cases hl1 : main_loop PATH_MAX fs argv0 stack (heap_before ++ buf)
              (some heap_before.length) (search_path_string getenv_PATH) size ta1 pn1 q1 args
              0 0 0 with
          | ok t1 =>
            obtain ⟨he, ha⟩ := main_loop_flags _ _ _ _ _ _ _ _ _ _ _ _ _ _ _ _ _ _ _ _ hl hl1
            rw [hl] at h
            rw [hl1] at h1
            cases h
            cases h1
            rw [he, ha]
          | fault =>
            rw [hl1] at h1
            cases h1
          | outOfFuel =>
            rw [hl1] at h1
            cases h1
        | fault =>
          rw [hl] at h
          cases h
        | outOfFuel =>
          rw [hl] at h
          cases h
    | fault =>
      rw [hcp] at h
      cases h
    | outOfFuel =>
      rw [hcp] at h
      cases h

theorem take_min_length (l : List Char) (k : Nat) : l.take k = l.take (min l.length k) := by
  by_cases h : k ≤ l.length
  · rw [Nat.min_eq_right h]
  · have h1 : l.length ≤ k := by omega
    rw [Nat.min_eq_left h1, List.take_of_length_le h1, List.take_of_length_le (Nat.le_refl _)]

/-! ## The claims -/

/-- C1: for every search-path string `s`, `create_path_items` succeeds and the
entry iteration of `try_find` over the buffer and size it returns (wherever the
buffer lies in memory) visits exactly `count(':') + 1` entries, empty ones
included. -/
theorem create_path_items_entry_count (s heap_before : List Char) (hs : NUL ∉ s) :
    ∃ buf size entries,
      create_path_items true s = Outcome.ok (some (buf, size)) ∧
      path_iter (heap_before ++ buf) (heap_before.length + size) size heap_before.length
        = Outcome.ok entries ∧
      entries.length = s.count ':' + 1 :=
  ⟨packed (fields s), s.length + 1, located heap_before.length (fields s),
    create_path_items_spec s hs, path_iter_fields s heap_before hs,
    by rw [located_length, fields_length]⟩

theorem create_path_items_entry_count_witness :
    NUL ∉ ":/usr/bin::/bin:".toList ∧
    ∃ buf size entries,
      create_path_items true ":/usr/bin::/bin:".toList = Outcome.ok (some (buf, size)) ∧
      path_iter ([] ++ buf) (([] : List Char).length + size) size ([] : List Char).length
        = Outcome.ok entries ∧
      entries.length = ":/usr/bin::/bin:".toList.count ':' + 1 :=
  ⟨by decide, create_path_items_entry_count ":/usr/bin::/bin:".toList [] (by decide)⟩

/-- C2: for every search-path string `s`, the entries visited over the buffer
made by `create_path_items` are, in order, the pieces of `s` cut at every
`':'`: no entry holds a `':'`, the entries joined with `':'` give back `s`, and
they are what `List.splitOn` returns for `s`. -/
theorem create_path_items_split (s heap_before : List Char) (hs : NUL ∉ s) :
    ∃ buf size entries,
      create_path_items true s = Outcome.ok (some (buf, size)) ∧
      path_iter (heap_before ++ buf) (heap_before.length + size) size heap_before.length
        = Outcome.ok entries ∧
      (∀ e ∈ entries, ':' ∉ e.2) ∧
      [':'].intercalate (entries.map Prod.snd) = s ∧
      entries.map Prod.snd = s.splitOn ':' := by
  refine ⟨packed (fields s), s.length + 1, located heap_before.length (fields s),
    create_path_items_spec s hs, path_iter_fields s heap_before hs, ?_, ?_, ?_⟩
  · intro e he
    apply fields_no_sep s e.2
    rw [← located_strings (fields s) heap_before.length]
    exact List.mem_map_of_mem Prod.snd he
  · rw [located_strings, fields_join]
  · rw [located_strings]
    have h := List.splitOn_intercalate (fields s) ':' (fields_no_sep s) (fields_ne_nil s)
    rw [fields_join] at h
    exact h.symm

theorem create_path_items_split_witness :
    NUL ∉ ":/usr/bin::/bin:".toList ∧
    ∃ buf size entries,
      create_path_items true ":/usr/bin::/bin:".toList = Outcome.ok (some (buf, size)) ∧
      path_iter (['h'] ++ buf) (['h'].length + size) size ['h'].length = Outcome.ok entries ∧
      (∀ e ∈ entries, ':' ∉ e.2) ∧
      [':'].intercalate (entries.map Prod.snd) = ":/usr/bin::/bin:".toList ∧
      entries.map Prod.snd = ":/usr/bin::/bin:".toList.splitOn ':' :=
  ⟨by decide, create_path_items_split ":/usr/bin::/bin:".toList ['h'] (by decide)⟩

/-- C3, on the code: for the 4098-byte query `long_query` (it holds a `'/'`) and
`PATH_MAX = 4096`, `strncpy` copies 4095 bytes and writes no terminator. When the
last byte of `new_path` happens to be NUL the one path tested is the 4095-byte
prefix of the query, not the query, and `try_find` returns true and prints that
prefix in a filesystem where the query itself is not executable; when that byte
is not NUL the string handed to `access` runs past the end of `new_path`. -/
theorem try_find_long_query_truncated :
    '/' ∈ long_query ∧ long_query_cut ≠ long_query ∧ only_cut long_query = false ∧
    try_find 4096 only_cut ['w', 'h', 'i', 'c', 'h'] (List.replicate 4096 NUL)
        ("/usr/bin".toList ++ NUL :: "/bin".toList ++ [NUL]) long_query (some 0)
        "/usr/bin:/bin".toList 14 false false false
      = Outcome.ok ⟨true,
          [Event.access long_query_cut, Event.stdout (long_query_cut ++ ['\n'])],
          (List.replicate 4089 '/' ++ ['b', 'i', 'n']) ++ NUL :: ['l', 's', 'X', 'Y', 'Z']⟩ ∧
    try_find 4096 only_cut ['w', 'h', 'i', 'c', 'h'] (List.replicate 4096 'x')
        ("/usr/bin".toList ++ NUL :: "/bin".toList ++ [NUL]) long_query (some 0)
        "/usr/bin:/bin".toList 14 false false false
      = Outcome.fault := by
  have hcut : only_cut long_query_cut = true := decide_eq_true rfl
  refine ⟨?_, long_query_cut_ne, ?_, ?_, ?_⟩
  · rw [long_query_split]
    exact List.mem_append_right _ (List.mem_cons_self _ _)
  · simp only [only_cut, decide_eq_false_iff_not]
    exact fun h => long_query_cut_ne h.symm
  · rw [try_find_slash_long 4096 only_cut _ _ _ long_query _ _ _ _ _ _ _ _ NUL
      long_query_split (by decide) long_query_NUL long_query_length (stack_last NUL)]
    rw [if_pos rfl, long_query_take]
    simp only [try_print, hcut]
    rfl
  · rw [try_find_slash_long 4096 only_cut _ _ _ long_query _ _ _ _ _ _ _ _ 'x'
      long_query_split (by decide) long_query_NUL long_query_length (stack_last 'x')]
    rw [if_neg (by decide)]

/-- C4: for every query without `'/'`, every search-path string `s` and every
filesystem `fs`, with `try_all = false` `try_find` returns, and it returns true
iff the candidate of some directory is executable; the paths it tests are the
candidates in search-path order up to and including the first executable one
and none after it; when not quiet it prints one line, for that first executable
candidate, and no line if there is none; if no candidate is executable it has
tested all of them and returns false. (The byte before the buffer is readable,
or `s` does not start with an empty entry.) -/
theorem try_find_first_match (PATH_MAX : Nat) (fs : List Char → Bool)
    (argv0 stack heap_before s name : List Char) (pn q : Bool)
    (hs : NUL ∉ s) (hname : '/' ∉ name)
    (hheap : heap_before = [] → ∃ c t, s = c :: t ∧ c ≠ ':') :
    ∃ buf size entries cands r,
      create_path_items true s = Outcome.ok (some (buf, size)) ∧
      path_iter (heap_before ++ buf) (heap_before.length + size) size heap_before.length
        = Outcome.ok entries ∧
      candidates PATH_MAX (heap_before ++ buf) name entries = some cands ∧
      cands.length = s.count ':' + 1 ∧
      try_find PATH_MAX fs argv0 stack (heap_before ++ buf) name (some heap_before.length)
        s size false pn q = Outcome.ok r ∧
      (r.success = true ↔ ∃ c ∈ cands, fs c = true) ∧
      tested r.events = cands.takeWhile (fun c => !fs c) ++ (cands.find? fs).toList ∧
      printed r.events
        = (if q then [] else (cands.find? fs).toList.map (report_line pn name)) ∧
      ((∀ c ∈ cands, fs c = false) → tested r.events = cands ∧ r.success = false) := by
  obtain ⟨cands, hc, hlen⟩ := search_candidates PATH_MAX heap_before s name hs hheap
  obtain ⟨r, hr, hsucc, _, htested, hprinted, _⟩ :=
    try_find_search PATH_MAX fs argv0 stack heap_before s name s false pn q cands hs hname hc
  have ht : tested r.events = cands.takeWhile (fun c => !fs c) ++ (cands.find? fs).toList := by
    rw [htested, scan_first_tested]
  refine ⟨packed (fields s), s.length + 1, located heap_before.length (fields s), cands, r,
    create_path_items_spec s hs, path_iter_fields s heap_before hs, hc, hlen, hr, ?_, ht, ?_, ?_⟩
  · rw [hsucc]
    simp
  · rw [hprinted, scan_printed, scan_first_tested]
    cases q
    · simp only [Bool.false_eq_true, if_false]
      congr 1
      rw [List.filter_append]
      have h1 : (cands.takeWhile (fun c => !fs c)).filter fs = [] := by
        rw [List.filter_eq_nil_iff]
        intro a ha
        have := List.mem_takeWhile_imp ha
        simpa using this
      rw [h1, List.nil_append]
      cases hf : cands.find? fs with
      | none => rfl
      | some c =>
        have := List.find?_some hf
        simp [this]
    · rfl
  · intro hall
    have h1 : cands.takeWhile (fun c => !fs c) = cands := by
      rw [List.takeWhile_eq_self_iff]
      intro c hc1
      simp [hall c hc1]
    have h2 : cands.find? fs = none := by
      rw [List.find?_eq_none]
      intro c hc1
      simp [hall c hc1]
    refine ⟨by rw [ht, h1, h2]; simp, ?_⟩
    rw [hsucc]
    rw [List.any_eq_false]
    intro c hc1
    simp [hall c hc1]

theorem try_find_first_match_witness :
    NUL ∉ "/usr/bin:/bin".toList ∧ '/' ∉ "sh".toList ∧
    (([] : List Char) = [] → ∃ c t, "/usr/bin:/bin".toList = c :: t ∧ c ≠ ':') ∧
    ∃ buf size entries cands r,
      create_path_items true "/usr/bin:/bin".toList = Outcome.ok (some (buf, size)) ∧
      path_iter ([] ++ buf) (([] : List Char).length + size) size ([] : List Char).length
        = Outcome.ok entries ∧
      candidates 4096 ([] ++ buf) "sh".toList entries = some cands ∧
      cands.length = "/usr/bin:/bin".toList.count ':' + 1 ∧
      try_find 4096 (fun p => decide (p = "/bin/sh".toList)) "which".toList [] ([] ++ buf)
        "sh".toList (some ([] : List Char).length) "/usr/bin:/bin".toList size false true false
        = Outcome.ok r ∧
      (r.success = true ↔ ∃ c ∈ cands, (fun p => decide (p = "/bin/sh".toList)) c = true) ∧
      tested r.events
        = cands.takeWhile (fun c => !(fun p => decide (p = "/bin/sh".toList)) c)
          ++ (cands.find? (fun p => decide (p = "/bin/sh".toList))).toList ∧
      printed r.events
        = (if false then []
           else (cands.find? (fun p => decide (p = "/bin/sh".toList))).toList.map
            (report_line true "sh".toList)) ∧
      ((∀ c ∈ cands, (fun p => decide (p = "/bin/sh".toList)) c = false) →
        tested r.events = cands ∧ r.success = false) :=
  ⟨by decide, by decide, fun _ => ⟨'/', "usr/bin:/bin".toList, rfl, by decide⟩,
    try_find_first_match 4096 (fun p => decide (p = "/bin/sh".toList)) "which".toList []
      [] "/usr/bin:/bin".toList "sh".toList true false (by decide) (by decide)
      (fun _ => ⟨'/', "usr/bin:/bin".toList, rfl, by decide⟩)⟩

/-- C5: for every query without `'/'`, every search-path string `s` and every
filesystem `fs`, with `try_all = true` the loop of `try_find` is never left by
its `return`: every candidate is tested, in search-path order; when not quiet
the lines printed are those of the executable candidates, in that order, so
their number is the number of entries whose candidate is executable; and the
value returned is true iff that number is at least one. (The byte before the
buffer is readable, or `s` does not start with an empty entry.) -/
theorem try_find_all_matches (PATH_MAX : Nat) (fs : List Char → Bool)
    (argv0 stack heap_before s name : List Char) (pn q : Bool)
    (hs : NUL ∉ s) (hname : '/' ∉ name)
    (hheap : heap_before = [] → ∃ c t, s = c :: t ∧ c ≠ ':') :
    ∃ buf size entries cands r,
      create_path_items true s = Outcome.ok (some (buf, size)) ∧
      path_iter (heap_before ++ buf) (heap_before.length + size) size heap_before.length
        = Outcome.ok entries ∧
      candidates PATH_MAX (heap_before ++ buf) name entries = some cands ∧
      cands.length = s.count ':' + 1 ∧
      (∃ ev, try_find_loop PATH_MAX fs (heap_before ++ buf) name (heap_before.length + size)
        true pn q size heap_before.length false
          = Outcome.ok (LoopExit.finished (cands.any fs) ev)) ∧
      try_find PATH_MAX fs argv0 stack (heap_before ++ buf) name (some heap_before.length)
        s size true pn q = Outcome.ok r ∧
      tested r.events = cands ∧
      printed r.events = (if q then [] else (cands.filter fs).map (report_line pn name)) ∧
      (q = false → (printed r.events).length = cands.countP fs) ∧
      (r.success = true ↔ 1 ≤ cands.countP fs) := by
  obtain ⟨cands, hc, hlen⟩ := search_candidates PATH_MAX heap_before s name hs hheap
  obtain ⟨r, hr, hsucc, _, htested, hprinted, _⟩ :=
    try_find_search PATH_MAX fs argv0 stack heap_before s name s true pn q cands hs hname hc
  have hfuel : (fields s).length ≤ s.length + 1 := by
    rw [fields_length]
    have := List.count_le_length ':' s
    omega
  have hloop := try_find_loop_scan PATH_MAX fs name true pn q (fields s) heap_before
    (s.length + 1) false cands (fields_no_NUL s hs) hfuel hc
  rw [packed_fields_length] at hloop
  obtain ⟨ev, hev⟩ := scan_all_finished fs name pn q cands false
  have ht : tested r.events = cands := by rw [htested, scan_all_tested]
  have hp : printed r.events
      = (if q then [] else (cands.filter fs).map (report_line pn name)) := by
    rw [hprinted, scan_printed, scan_all_tested]
  refine ⟨packed (fields s), s.length + 1, located heap_before.length (fields s), cands, r,
    create_path_items_spec s hs, path_iter_fields s heap_before hs, hc, hlen, ⟨ev, ?_⟩, hr, ht,
    hp, ?_, ?_⟩
  · rw [hloop, hev]
    simp
  · intro hq
    rw [hp, hq]
    simp [List.countP_eq_length_filter]
  · rw [hsucc, List.any_eq_true]
    constructor
    · rintro ⟨c, hc1, hc2⟩
      exact List.countP_pos_iff.mpr ⟨c, hc1, hc2⟩
    · intro h
      exact List.countP_pos_iff.mp h

theorem try_find_all_matches_witness :
    NUL ∉ ":/usr/bin:/bin".toList ∧ '/' ∉ "sh".toList ∧
    (['h'] = [] → ∃ c t, ":/usr/bin:/bin".toList = c :: t ∧ c ≠ ':') ∧
    ∃ buf size entries cands r,
      create_path_items true ":/usr/bin:/bin".toList = Outcome.ok (some (buf, size)) ∧
      path_iter (['h'] ++ buf) (['h'].length + size) size ['h'].length = Outcome.ok entries ∧
      candidates 4096 (['h'] ++ buf) "sh".toList entries = some cands ∧
      cands.length = ":/usr/bin:/bin".toList.count ':' + 1 ∧
      (∃ ev, try_find_loop 4096 (fun _ => true) (['h'] ++ buf) "sh".toList (['h'].length + size)
        true true false size ['h'].length false
          = Outcome.ok (LoopExit.finished (cands.any (fun _ => true)) ev)) ∧
      try_find 4096 (fun _ => true) "which".toList [] (['h'] ++ buf) "sh".toList
        (some ['h'].length) ":/usr/bin:/bin".toList size true true false = Outcome.ok r ∧
      tested r.events = cands ∧
      printed r.events
        = (if false then []
           else (cands.filter (fun _ => true)).map (report_line true "sh".toList)) ∧
      (false = false → (printed r.events).length = cands.countP (fun _ => true)) ∧
      (r.success = true ↔ 1 ≤ cands.countP (fun _ => true)) :=
  ⟨by decide, by decide, fun h => absurd h (by decide),
    try_find_all_matches 4096 (fun _ => true) "which".toList [] ['h'] ":/usr/bin:/bin".toList
      "sh".toList true false (by decide) (by decide) (fun h => absurd h (by decide))⟩

/-- C6: for every non-empty list of queries, every search path and every
filesystem, when the path buffer is allocated `main` ends with an exit status
(given queries that are C strings, a readable byte before the buffer or a path
that does not start with an empty entry, and queries with a `'/'` shorter than
`PATH_MAX - 1`); and whenever it ends with one, `attempts` is the number of
queries, `errors` the number of those for which `try_find` returned false, and
the status is 0 iff `errors = 0` iff every query was resolved, 1 iff
`0 < errors < attempts` iff some query was resolved and some was not, 2 iff
`errors = attempts` iff none was resolved. -/
theorem main_exit_status (PATH_MAX : Nat) (fs : List Char → Bool) (argv0 : List Char)
    (stack : Nat → List Char) (getenv_PATH : Option (List Char)) (heap_before : List Char)
    (ta pn q : Bool) (args : List (List Char)) (hargs : args ≠ [])
    (hpath : NUL ∉ search_path_string getenv_PATH) :
    ((∀ arg ∈ args, NUL ∉ arg) →
      (heap_before = [] → ∃ c t, search_path_string getenv_PATH = c :: t ∧ c ≠ ':') →
      (∀ arg ∈ args, '/' ∈ arg → arg.length + 1 < PATH_MAX) →
      ∃ status ev, main_resolve PATH_MAX fs argv0 stack getenv_PATH true heap_before
        ta pn q args = Outcome.ok (status, ev)) ∧
    (∀ status ev,
      main_resolve PATH_MAX fs argv0 stack getenv_PATH true heap_before ta pn q args
        = Outcome.ok (status, ev) →
      ∃ buf size t rs,
        create_path_items true (search_path_string getenv_PATH)
          = Outcome.ok (some (buf, size)) ∧
        main_loop PATH_MAX fs argv0 stack (heap_before ++ buf) (some heap_before.length)
          (search_path_string getenv_PATH) size ta pn q args 0 0 0 = Outcome.ok t ∧
        List.Forall₂ (fun arg r => ∃ j, try_find PATH_MAX fs argv0 (stack j)
          (heap_before ++ buf) arg (some heap_before.length)
          (search_path_string getenv_PATH) size ta pn q = Outcome.ok r) args rs ∧
        t.attempts = args.length ∧
        t.errors = rs.countP (fun r => !r.success) ∧
        t.errors ≤ t.attempts ∧
        status = exit_status t.errors t.attempts ∧
        (status = 0 ↔ t.errors = 0) ∧
        (status = 0 ↔ ∀ r ∈ rs, r.success = true) ∧
        (status = 1 ↔ 0 < t.errors ∧ t.errors < t.attempts) ∧
        (status = 1 ↔ (∃ r ∈ rs, r.success = true) ∧ (∃ r ∈ rs, r.success = false)) ∧
        (status = 2 ↔ t.errors = t.attempts) ∧
        (status = 2 ↔ ∀ r ∈ rs, r.success = false)) := by
  constructor
  · intro hnul hheap hshort
    exact main_resolve_returns PATH_MAX fs argv0 stack getenv_PATH heap_before ta pn q args
      hargs hpath hnul hheap hshort
  · intro status ev h
    rw [main_resolve_ok PATH_MAX fs argv0 stack getenv_PATH heap_before ta pn q args hargs
      hpath] at h
    cases hloop : main_loop PATH_MAX fs argv0 stack
        (heap_before ++ packed (fields (search_path_string getenv_PATH)))
        (some heap_before.length) (search_path_string getenv_PATH)
        ((search_path_string getenv_PATH).length + 1) ta pn q args 0 0 0 with
    | ok t =>
      rw [hloop] at h
      simp only [Outcome.ok.injEq, Prod.mk.injEq] at h
      obtain ⟨hstatus, _⟩ := h
      obtain ⟨rs, hrs, herr, hatt, _, _⟩ := main_loop_spec _ _ _ _ _ _ _ _ _ _ _ _ _ _ _ _ hloop
      have hlen : args.length = rs.length := hrs.length_eq
      have hpos : 0 < args.length := List.length_pos.mpr hargs
      have hle : rs.countP (fun r => !r.success) ≤ rs.length := List.countP_le_length _
      rw [Nat.zero_add] at herr hatt
      have hle2 : t.errors ≤ t.attempts := by omega
      obtain ⟨c0, c1, c2⟩ := exit_status_cases t.errors t.attempts (by omega) hle2
      obtain ⟨k0, k2, k1⟩ := countP_not_success rs
      rw [hstatus] at c0 c1 c2
      refine ⟨_, _, t, rs, create_path_items_spec _ hpath, hloop, hrs, hatt, herr, hle2,
        hstatus.symm, c0, ?_, c1, ?_, c2, ?_⟩
      · rw [c0, herr]
        exact k0
      · rw [c1, herr, hatt, hlen]
        exact k1
      · rw [c2, herr, hatt, hlen]
        exact k2
    | fault =>
      rw [hloop] at h
      cases h
    | outOfFuel =>
      rw [hloop] at h
      cases h

theorem main_exit_status_witness :
    ["sh".toList, "zz".toList] ≠ [] ∧ NUL ∉ search_path_string none ∧
    (∀ arg ∈ ["sh".toList, "zz".toList], NUL ∉ arg) ∧
    (∀ arg ∈ ["sh".toList, "zz".toList], '/' ∈ arg → arg.length + 1 < 4096) ∧
    ∃ status ev,
      main_resolve 4096 (fun p => decide (p = "/bin/sh".toList)) "which".toList (fun _ => [])
        none true [] false false false ["sh".toList, "zz".toList] = Outcome.ok (status, ev) ∧
      ∃ t,
        main_loop 4096 (fun p => decide (p = "/bin/sh".toList)) "which".toList (fun _ => [])
          ([] ++ packed (fields (search_path_string none))) (some ([] : List Char).length)
          (search_path_string none) ((search_path_string none).length + 1)
          false false false ["sh".toList, "zz".toList] 0 0 0 = Outcome.ok t ∧
        t.attempts = 2 ∧ status = exit_status t.errors t.attempts ∧
        (status = 1 ↔ 0 < t.errors ∧ t.errors < t.attempts) := by
  have T := main_exit_status 4096 (fun p => decide (p = "/bin/sh".toList)) "which".toList
    (fun _ => []) none [] false false false ["sh".toList, "zz".toList] (by decide) (by decide)
  obtain ⟨status, ev, h⟩ := T.1 (by decide) (fun _ => ⟨'/', "usr/bin:/bin".toList, rfl, by decide⟩)
    (by decide)
  obtain ⟨buf, size, t, rs, hcp, hloop, _, hatt, _, _, hst, _, _, h1, _⟩ := T.2 status ev h
  rw [create_path_items_spec _ (by decide)] at hcp
  simp only [Outcome.ok.injEq, Option.some.injEq, Prod.mk.injEq] at hcp
  obtain ⟨hbuf, hsize⟩ := hcp
  subst hbuf
  subst hsize
  exact ⟨by decide, by decide, by decide, by decide, status, ev, h, t, hloop, hatt, hst, h1⟩

/-- C7, as stated, fails: for the query `/nonexistent/foo` (not executable) with
`PATH=/usr/bin:/bin` and quiet off, the one diagnostic is
`which: no foo in (/nonexistent)`: it holds neither the query as given nor the
search-path string. -/
theorem try_find_diagnostic_slash_query :
    try_find 4096 (fun _ => false) "which".toList (List.replicate 4096 'x')
        ("/usr/bin".toList ++ NUL :: "/bin".toList ++ [NUL]) "/nonexistent/foo".toList (some 0)
        "/usr/bin:/bin".toList 14 false false false
      = Outcome.ok ⟨false,
          [Event.access "/nonexistent/foo".toList,
           Event.stderr "which: no foo in (/nonexistent)\n".toList],
          "/nonexistent".toList ++ NUL :: "foo".toList⟩ ∧
    "which: no foo in (/nonexistent)\n".toList
      ≠ diagnostic "which".toList "/nonexistent/foo".toList "/usr/bin:/bin".toList ∧
    ¬ ("/nonexistent/foo".toList <:+: "which: no foo in (/nonexistent)\n".toList) ∧
    ¬ ("/usr/bin:/bin".toList <:+: "which: no foo in (/nonexistent)\n".toList) := by
  refine ⟨?_, by decide, by decide, by decide⟩
  rw [try_find_slash 4096 (fun _ => false) _ _ _ "/nonexistent/foo".toList _
    "/nonexistent".toList "foo".toList _ _ _ _ _ (by decide) (by decide) (by decide)
    (by decide)]
  decide

/-- C7, amended: `try_find` returns (for C strings, a readable byte before the
buffer or a path not starting with an empty entry, and a query with a `'/'`
shorter than `PATH_MAX - 1`), and whenever it returns, it has written one
diagnostic if nothing was found and quiet is off, and none otherwise. For a
query without `'/'` the diagnostic is `<argv0>: no <query> in (<search-path
string>)`; for a query with a `'/'` it is `<argv0>: no <base> in (<dir>)`, `base`
being what follows the last `'/'` of the query and `dir` what precedes it. -/
theorem try_find_diagnostic (PATH_MAX : Nat) (fs : List Char → Bool)
    (argv0 stack heap_before s name : List Char) (ta pn q : Bool) :
    (NUL ∉ s → NUL ∉ name →
      (heap_before = [] → ∃ c t, s = c :: t ∧ c ≠ ':') →
      ('/' ∈ name → name.length + 1 < PATH_MAX) →
      ∃ buf size r,
        create_path_items true s = Outcome.ok (some (buf, size)) ∧
        try_find PATH_MAX fs argv0 stack (heap_before ++ buf) name (some heap_before.length)
          s size ta pn q = Outcome.ok r) ∧
    (∀ (mem original_path : List Char) (items : Option Nat) (path_size : Nat) (r : FindResult),
      try_find PATH_MAX fs argv0 stack mem name items original_path path_size ta pn q
        = Outcome.ok r →
      ('/' ∉ name →
        diagnosed r.events
          = if r.success || q then [] else [diagnostic argv0 name original_path]) ∧
      (∀ dir base, name = dir ++ '/' :: base → '/' ∉ base →
        diagnosed r.events = if r.success || q then [] else [diagnostic argv0 base dir])) := by
  constructor
  · intro hs h0 hheap hshort
    obtain ⟨r, hr⟩ := try_find_returns PATH_MAX fs argv0 stack heap_before s name s ta pn q
      hs h0 hheap hshort
    exact ⟨_, _, r, create_path_items_spec s hs, hr⟩
  · intro mem original_path items path_size r h
    constructor
    · intro hname
      exact (try_find_events_search _ _ _ _ _ _ _ _ _ _ _ _ r hname h).2
    · intro dir base hdb hbase
      exact (try_find_events_slash _ _ _ _ _ _ _ dir base _ _ _ _ _ r hdb hbase h).2.1

theorem try_find_diagnostic_witness :
    NUL ∉ "/usr/bin:/bin".toList ∧ NUL ∉ "/nonexistent/foo".toList ∧
    ('/' ∈ "/nonexistent/foo".toList → "/nonexistent/foo".toList.length + 1 < 4096) ∧
    "/nonexistent/foo".toList = "/nonexistent".toList ++ '/' :: "foo".toList ∧
    '/' ∉ "foo".toList ∧
    ∃ buf size r,
      create_path_items true "/usr/bin:/bin".toList = Outcome.ok (some (buf, size)) ∧
      try_find 4096 (fun _ => false) "which".toList [] ([] ++ buf) "/nonexistent/foo".toList
        (some ([] : List Char).length) "/usr/bin:/bin".toList size false false false
        = Outcome.ok r ∧
      diagnosed r.events
        = if r.success || false then []
          else [diagnostic "which".toList "foo".toList "/nonexistent".toList] := by
  have T := try_find_diagnostic 4096 (fun _ => false) "which".toList [] []
    "/usr/bin:/bin".toList "/nonexistent/foo".toList false false false
  obtain ⟨buf, size, r, hcp, hr⟩ := T.1 (by decide) (by decide)
    (fun _ => ⟨'/', "usr/bin:/bin".toList, rfl, by decide⟩) (fun _ => by decide)
  exact ⟨by decide, by decide, fun _ => by decide, by decide, by decide, buf, size, r, hcp, hr,
    (T.2 _ _ _ _ r hr).2 "/nonexistent".toList "foo".toList (by decide) (by decide)⟩

/-- C8, as stated, fails: for the executable query `/bin/ls` with the prefix
option, the line printed is `ls: /bin/ls`, not `/bin/ls: /bin/ls`: the name in
front is not the query as given. -/
theorem try_find_prefix_slash_query :
    try_find 4096 (fun p => decide (p = "/bin/ls".toList)) "which".toList
        (List.replicate 4096 'x') ("/usr/bin".toList ++ NUL :: "/bin".toList ++ [NUL])
        "/bin/ls".toList (some 0) "/usr/bin:/bin".toList 14 false true false
      = Outcome.ok ⟨true,
          [Event.access "/bin/ls".toList, Event.stdout "ls: /bin/ls\n".toList],
          "/bin".toList ++ NUL :: "ls".toList⟩ ∧
    "ls: /bin/ls\n".toList ≠ report_line true "/bin/ls".toList "/bin/ls".toList := by
  refine ⟨?_, by decide⟩
  rw [try_find_slash 4096 _ _ _ _ "/bin/ls".toList _
    "/bin".toList "ls".toList _ _ _ _ _ (by decide) (by decide) (by decide) (by decide)]
  decide

/-- C8, amended: `try_find` returns (under the conditions of C7), and whenever
it returns with quiet off, the lines on standard output are, in order, one for
each tested path found executable: `<name>: <path>` with the prefix option and
`<path>` without it, where `<name>` is the query when it has no `'/'` and is
what follows the last `'/'` of the query when it has one. With quiet on there
is no line. -/
theorem try_find_report_lines (PATH_MAX : Nat) (fs : List Char → Bool)
    (argv0 stack heap_before s name : List Char) (ta pn q : Bool) :
    (NUL ∉ s → NUL ∉ name →
      (heap_before = [] → ∃ c t, s = c :: t ∧ c ≠ ':') →
      ('/' ∈ name → name.length + 1 < PATH_MAX) →
      ∃ buf size r,
        create_path_items true s = Outcome.ok (some (buf, size)) ∧
        try_find PATH_MAX fs argv0 stack (heap_before ++ buf) name (some heap_before.length)
          s size ta pn q = Outcome.ok r) ∧
    (∀ (mem original_path : List Char) (items : Option Nat) (path_size : Nat) (r : FindResult),
      try_find PATH_MAX fs argv0 stack mem name items original_path path_size ta pn q
        = Outcome.ok r →
      ('/' ∉ name →
        printed r.events
          = if q then [] else ((tested r.events).filter fs).map (report_line pn name)) ∧
      (∀ dir base, name = dir ++ '/' :: base → '/' ∉ base →
        printed r.events
          = if q then [] else ((tested r.events).filter fs).map (report_line pn base))) := by
  constructor
  · intro hs h0 hheap hshort
    obtain ⟨r, hr⟩ := try_find_returns PATH_MAX fs argv0 stack heap_before s name s ta pn q
      hs h0 hheap hshort
    exact ⟨_, _, r, create_path_items_spec s hs, hr⟩
  · intro mem original_path items path_size r h
    constructor
    · intro hname
      exact (try_find_events_search _ _ _ _ _ _ _ _ _ _ _ _ r hname h).1
    · intro dir base hdb hbase
      exact (try_find_events_slash _ _ _ _ _ _ _ dir base _ _ _ _ _ r hdb hbase h).1

theorem try_find_report_lines_witness :
    NUL ∉ "/usr/bin:/bin".toList ∧ NUL ∉ "sh".toList ∧
    ('/' ∈ "sh".toList → "sh".toList.length + 1 < 4096) ∧ '/' ∉ "sh".toList ∧
    ∃ buf size r,
      create_path_items true "/usr/bin:/bin".toList = Outcome.ok (some (buf, size)) ∧
      try_find 4096 (fun _ => true) "which".toList [] ([] ++ buf) "sh".toList
        (some ([] : List Char).length) "/usr/bin:/bin".toList size true true false
        = Outcome.ok r ∧
      printed r.events
        = if false then []
          else ((tested r.events).filter (fun _ => true)).map (report_line true "sh".toList) := by
  have T := try_find_report_lines 4096 (fun _ => true) "which".toList [] []
    "/usr/bin:/bin".toList "sh".toList true true false
  obtain ⟨buf, size, r, hcp, hr⟩ := T.1 (by decide) (by decide)
    (fun _ => ⟨'/', "usr/bin:/bin".toList, rfl, by decide⟩) (fun h => absurd h (by decide))
  exact ⟨by decide, by decide, fun h => absurd h (by decide), by decide, buf, size, r, hcp, hr,
    (T.2 _ _ _ _ r hr).1 (by decide)⟩

/-- C9: with quiet on, `try_print` only calls `access`; every call of `try_find`
that returns has written nothing to standard output and nothing to standard
error, found or not; and for one or more queries, with the path buffer
allocated, `main` ends with an exit status (under the conditions of C6) and
every run that ends has written nothing to either stream. -/
theorem quiet_writes_nothing (PATH_MAX : Nat) (fs : List Char → Bool) (argv0 : List Char)
    (stack : Nat → List Char) (getenv_PATH : Option (List Char)) (heap_before : List Char)
    (ta pn : Bool) (args : List (List Char)) (hargs : args ≠ [])
    (hpath : NUL ∉ search_path_string getenv_PATH) :
    (∀ path name : List Char, (try_print fs path name pn true).2 = [Event.access path]) ∧
    (∀ (stk mem name original_path : List Char) (items : Option Nat) (path_size : Nat)
        (r : FindResult),
      try_find PATH_MAX fs argv0 stk mem name items original_path path_size ta pn true
        = Outcome.ok r →
      printed r.events = [] ∧ diagnosed r.events = []) ∧
    ((∀ arg ∈ args, NUL ∉ arg) →
      (heap_before = [] → ∃ c t, search_path_string getenv_PATH = c :: t ∧ c ≠ ':') →
      (∀ arg ∈ args, '/' ∈ arg → arg.length + 1 < PATH_MAX) →
      ∃ status ev, main_resolve PATH_MAX fs argv0 stack getenv_PATH true heap_before
        ta pn true args = Outcome.ok (status, ev)) ∧
    (∀ status ev,
      main_resolve PATH_MAX fs argv0 stack getenv_PATH true heap_before ta pn true args
        = Outcome.ok (status, ev) →
      printed ev = [] ∧ diagnosed ev = []) := by
  refine ⟨?_, ?_, ?_, ?_⟩
  · intro path name
    simp [try_print]
  · intro stk mem name original_path items path_size r h
    exact try_find_quiet _ _ _ _ _ _ _ _ _ _ _ _ h
  · intro hnul hheap hshort
    exact main_resolve_returns PATH_MAX fs argv0 stack getenv_PATH heap_before ta pn true args
      hargs hpath hnul hheap hshort
  · intro status ev h
    rw [main_resolve_ok PATH_MAX fs argv0 stack getenv_PATH heap_before ta pn true args hargs
      hpath] at h
    cases hloop : main_loop PATH_MAX fs argv0 stack
        (heap_before ++ packed (fields (search_path_string getenv_PATH)))
        (some heap_before.length) (search_path_string getenv_PATH)
        ((search_path_string getenv_PATH).length + 1) ta pn true args 0 0 0 with
    | ok t =>
      rw [hloop] at h
      simp only [Outcome.ok.injEq, Prod.mk.injEq] at h
      obtain ⟨_, hev⟩ := h
      obtain ⟨rs, hrs, _, _, hevents, _⟩ :=
        main_loop_spec _ _ _ _ _ _ _ _ _ _ _ _ _ _ _ _ hloop
      rw [← hev, hevents]
      exact flatten_quiet _ _ _ _ _ _ _ _ _ _ _ _ hrs
    | fault =>
      rw [hloop] at h
      cases h
    | outOfFuel =>
      rw [hloop] at h
      cases h

theorem quiet_writes_nothing_witness :
    ["sh".toList, "zz".toList] ≠ [] ∧ NUL ∉ search_path_string none ∧
    (∀ arg ∈ ["sh".toList, "zz".toList], NUL ∉ arg) ∧
    (∀ arg ∈ ["sh".toList, "zz".toList], '/' ∈ arg → arg.length + 1 < 4096) ∧
    ∃ status ev,
      main_resolve 4096 (fun p => decide (p = "/bin/sh".toList)) "which".toList (fun _ => [])
        none true [] false false true ["sh".toList, "zz".toList] = Outcome.ok (status, ev) ∧
      printed ev = [] ∧ diagnosed ev = [] := by
  have T := quiet_writes_nothing 4096 (fun p => decide (p = "/bin/sh".toList)) "which".toList
    (fun _ => []) none [] false false ["sh".toList, "zz".toList] (by decide) (by decide)
  obtain ⟨status, ev, h⟩ := T.2.2.1 (by decide)
    (fun _ => ⟨'/', "usr/bin:/bin".toList, rfl, by decide⟩) (by decide)
  exact ⟨by decide, by decide, by decide, by decide, status, ev, h, T.2.2.2 status ev h⟩

/-- C10: for every non-empty directory string `d` (read at any address `dir` of
any memory) and every name `n` whose joined length is less than `PATH_MAX`,
`create_full_path` produces `d` followed by `n` when the last character of `d`
is `'/'`, and `d`, one `'/'`, then `n` otherwise. -/
theorem create_full_path_join (PATH_MAX : Nat) (mem d n : List Char) (dir : Nat)
    (hd : cstr mem dir = some d) (hne : d ≠ [])
    (hlen : (if d.getLast hne = '/' then d ++ n else d ++ '/' :: n).length < PATH_MAX) :
    create_full_path PATH_MAX mem dir n
      = some (if d.getLast hne = '/' then d ++ n else d ++ '/' :: n) := by
  rw [create_full_path_nonempty PATH_MAX mem d n dir hd hne]
  by_cases hl : d.getLast hne = '/'
  · rw [if_pos hl] at hlen
    rw [if_pos hl, if_pos hl, List.append_nil]
    rw [List.take_of_length_le (by omega)]
  · rw [if_neg hl] at hlen
    rw [if_neg hl, if_neg hl]
    have h1 : d ++ ['/'] ++ n = d ++ '/' :: n := by simp
    rw [h1, List.take_of_length_le (by omega)]

theorem create_full_path_join_witness :
    cstr ("/usr/bin".toList ++ NUL :: "/bin/".toList ++ [NUL]) 9 = some "/bin/".toList ∧
    (if "/bin/".toList.getLast (by decide) = '/' then "/bin/".toList ++ "ls".toList
      else "/bin/".toList ++ '/' :: "ls".toList).length < 4096 ∧
    create_full_path 4096 ("/usr/bin".toList ++ NUL :: "/bin/".toList ++ [NUL]) 9 "ls".toList
      = some (if "/bin/".toList.getLast (by decide) = '/' then "/bin/".toList ++ "ls".toList
          else "/bin/".toList ++ '/' :: "ls".toList) :=
  ⟨by decide, by decide,
    create_full_path_join 4096 ("/usr/bin".toList ++ NUL :: "/bin/".toList ++ [NUL])
      "/bin/".toList "ls".toList 9 (by decide) (by decide) (by decide)⟩

/-- C11: the search-path string of `main` is the value of `PATH` when `PATH` is
set and not empty, and is `/usr/bin:/bin` when `PATH` is unset or is the empty
string; it is never empty, and `main` depends on `PATH` through that string
only (it is the one handed to `create_path_items`). -/
theorem search_path_string_default :
    search_path_string none = "/usr/bin:/bin".toList ∧
    search_path_string (some []) = "/usr/bin:/bin".toList ∧
    (∀ p : List Char, p ≠ [] → search_path_string (some p) = p) ∧
    (∀ g : Option (List Char), search_path_string g ≠ []) ∧
    (∀ (PATH_MAX : Nat) (fs : List Char → Bool) (argv0 : List Char) (stack : Nat → List Char)
        (g : Option (List Char)) (malloc_ok : Bool) (heap_before : List Char)
        (ta pn q : Bool) (args : List (List Char)),
      main_resolve PATH_MAX fs argv0 stack g malloc_ok heap_before ta pn q args
        = main_resolve PATH_MAX fs argv0 stack (some (search_path_string g)) malloc_ok
            heap_before ta pn q args) := by
  have hne : ∀ g : Option (List Char), search_path_string g ≠ [] := by
    intro g
    cases g with
    | none => decide
    | some p =>
      by_cases hp : p = []
      · simp only [search_path_string, if_pos hp]
        decide
      · simp only [search_path_string, if_neg hp]
        exact hp
  refine ⟨rfl, rfl, ?_, hne, ?_⟩
  · intro p hp
    simp only [search_path_string, if_neg hp]
  · intro PATH_MAX fs argv0 stack g malloc_ok heap_before ta pn q args
    have e : ∀ x : List Char,
        search_path_string (some x) = if x = [] then _PATH_DEFPATH else x := fun _ => rfl
    have h : search_path_string (some (search_path_string g)) = search_path_string g := by
      rw [e, if_neg (hne g)]
    simp only [main_resolve, h]

theorem search_path_string_default_witness :
    "/opt/bin:/bin".toList ≠ [] ∧
    search_path_string (some "/opt/bin:/bin".toList) = "/opt/bin:/bin".toList :=
  ⟨by decide, search_path_string_default.2.2.1 "/opt/bin:/bin".toList (by decide)⟩

/-- C12: when the arguments after `argv[0]` are only recognized option groups,
with or without a closing `--` (no query), or when an option group with a
character other than `a`, `p`, `s` comes before any query, `main` ends at once
with status 2: the line `<argv0> [-aps] [--] PROGRAM [...]` is the last thing
written to standard error (after the message of `getopt` in the second case),
no path is tested and nothing is written to standard output. -/
theorem main_usage_error (PATH_MAX : Nat) (fs : List Char → Bool) (stack : Nat → List Char)
    (getenv_PATH : Option (List Char)) (malloc_ok : Bool) (heap_before : List Char)
    (getopt_message : Char → List Char) (argv0 : List Char)
    (opts tail : List (List Char)) (bad : List Char)
    (hopts : ∀ o ∈ opts, recognized o = true) :
    (∀ args, args = opts ∨ args = opts ++ [['-', '-']] →
      main PATH_MAX fs stack getenv_PATH malloc_ok heap_before getopt_message argv0 args
        = Outcome.ok (2, [Event.stderr (argv0 ++ " [-aps] [--] PROGRAM [...]\n".toList)])) ∧
    (is_option bad = true → recognized bad = false →
      ∃ c ∈ bad, c ≠ 'a' ∧ c ≠ 'p' ∧ c ≠ 's' ∧
        main PATH_MAX fs stack getenv_PATH malloc_ok heap_before getopt_message argv0
            (opts ++ bad :: tail)
          = Outcome.ok (2, [Event.stderr (getopt_message c),
              Event.stderr (argv0 ++ " [-aps] [--] PROGRAM [...]\n".toList)])) ∧
    (∀ args status ev,
      args = opts ∨ args = opts ++ [['-', '-']] ∨
        (args = opts ++ bad :: tail ∧ is_option bad = true ∧ recognized bad = false) →
      main PATH_MAX fs stack getenv_PATH malloc_ok heap_before getopt_message argv0 args
        = Outcome.ok (status, ev) →
      status = WHICH_NONE ∧ tested ev = [] ∧ printed ev = [] ∧
        (diagnosed ev).getLast? = some (argv0 ++ " [-aps] [--] PROGRAM [...]\n".toList)) := by
  obtain ⟨ta, pn, q, hloop⟩ := getopt_loop_options opts false false false hopts
  have h1 : ∀ args, args = opts ∨ args = opts ++ [['-', '-']] →
      main PATH_MAX fs stack getenv_PATH malloc_ok heap_before getopt_message argv0 args
        = Outcome.ok (2, [Event.stderr (argv0 ++ " [-aps] [--] PROGRAM [...]\n".toList)]) := by
    intro args hargs
    rcases hargs with h | h
    · have h2 := hloop []
      rw [List.append_nil] at h2
      rw [h, main, h2]
      simp [getopt_loop, main_resolve, usage, WHICH_NONE]
    · rw [h, main, hloop]
      simp [getopt_loop, main_resolve, usage, WHICH_NONE]
  have h2 : is_option bad = true → recognized bad = false →
      ∃ c ∈ bad, c ≠ 'a' ∧ c ≠ 'p' ∧ c ≠ 's' ∧
        main PATH_MAX fs stack getenv_PATH malloc_ok heap_before getopt_message argv0
            (opts ++ bad :: tail)
          = Outcome.ok (2, [Event.stderr (getopt_message c),
              Event.stderr (argv0 ++ " [-aps] [--] PROGRAM [...]\n".toList)]) := by
    intro hb1 hb2
    obtain ⟨c, cs, hbad, hnot, hex⟩ := unrecognized_char bad hb1 hb2
    obtain ⟨x, hx, hx2, hx3⟩ := getopt_cluster_bad (c :: cs) ta pn q hex
    refine ⟨x, by rw [hbad]; exact List.mem_cons_of_mem _ hx, fun e => hx2 (Or.inl e),
      fun e => hx2 (Or.inr (Or.inl e)), fun e => hx2 (Or.inr (Or.inr e)), ?_⟩
    rw [main, hloop, hbad, getopt_loop, if_neg hnot, hx3]
    simp [usage, WHICH_NONE]
  refine ⟨h1, h2, ?_⟩
  intro args status ev hargs hmain
  rcases hargs with h | h | ⟨h, hb1, hb2⟩
  · rw [h1 args (Or.inl h)] at hmain
    cases hmain
    exact ⟨rfl, rfl, rfl, rfl⟩
  · rw [h1 args (Or.inr h)] at hmain
    cases hmain
    exact ⟨rfl, rfl, rfl, rfl⟩
  · obtain ⟨c, _, _, _, _, hc⟩ := h2 hb1 hb2
    rw [h, hc] at hmain
    cases hmain
    exact ⟨rfl, rfl, rfl, rfl⟩

theorem main_usage_error_witness :
    (∀ o ∈ ["-a".toList, "-sp".toList], recognized o = true) ∧
    is_option "-ax".toList = true ∧ recognized "-ax".toList = false ∧
    main 4096 (fun _ => true) (fun _ => []) none true [] (fun c => ['?', c]) "which".toList
        ["-a".toList, "-sp".toList]
      = Outcome.ok (2, [Event.stderr ("which".toList ++ " [-aps] [--] PROGRAM [...]\n".toList)]) ∧
    ∃ c ∈ "-ax".toList, c ≠ 'a' ∧ c ≠ 'p' ∧ c ≠ 's' ∧
      main 4096 (fun _ => true) (fun _ => []) none true [] (fun c => ['?', c]) "which".toList
          (["-a".toList, "-sp".toList] ++ "-ax".toList :: ["ls".toList])
        = Outcome.ok (2, [Event.stderr ((fun c => ['?', c]) c),
            Event.stderr ("which".toList ++ " [-aps] [--] PROGRAM [...]\n".toList)]) :=
  ⟨by decide, by decide, by decide,
    (main_usage_error 4096 (fun _ => true) (fun _ => []) none true [] (fun c => ['?', c])
      "which".toList ["-a".toList, "-sp".toList] ["ls".toList] "-ax".toList (by decide)).1
      _ (Or.inl rfl),
    (main_usage_error 4096 (fun _ => true) (fun _ => []) none true [] (fun c => ['?', c])
      "which".toList ["-a".toList, "-sp".toList] ["ls".toList] "-ax".toList (by decide)).2.1
      (by decide) (by decide)⟩

/-- C13, on the code: when `malloc` fails `main` goes on with `items` null and
`size = (size_t)-1`. For the query `ls` the loop of `try_find` is entered with
the null pointer and `create_full_path` calls `strlen` on it: the run does not
end with an exit status. (A query with a `'/'` never reads the path data:
`/bin/ls`, executable, is found and the run ends with status 0 after the
allocation message.) -/
theorem main_malloc_failure_null_read :
    main 4096 (fun _ => false) (fun _ => []) (some "/usr/bin:/bin".toList) false []
        (fun c => ['?', c]) "which".toList ["ls".toList]
      = Outcome.fault ∧
    create_path_items false "/usr/bin:/bin".toList = Outcome.ok none ∧
    try_find 4096 (fun _ => false) "which".toList [] [] "ls".toList none
        "/usr/bin:/bin".toList SIZE_MAX false false false
      = Outcome.fault ∧
    main 4096 (fun p => decide (p = "/bin/ls".toList)) (fun _ => [])
        (some "/usr/bin:/bin".toList) false [] (fun c => ['?', c]) "which".toList
        ["/bin/ls".toList]
      = Outcome.ok (0, [Event.stderr "which: error allocating path entries\n".toList,
          Event.access "/bin/ls".toList, Event.stdout "/bin/ls\n".toList]) := by
  refine ⟨by decide, by decide, ?_, by decide⟩
  exact try_find_null_items 4096 _ _ _ _ _ _ _ _ _ (by decide)

/-- C14, on the code: for `PATH=:/bin` the first entry is empty and lies at the
start of the buffer, so `dir[strlen(dir) - 1]` is the byte before the buffer.
When that byte cannot be read the call is undefined; when it is `'/'` the
candidate for the name `ls` is `ls`, without a separator; otherwise it is
`/ls`. For an empty entry further on (`/bin::`, entry at address 5) the byte
read is the terminator of the entry before it, at address 4, and the candidate
is `/ls`. In no case does the read stay inside the empty entry. -/
theorem create_full_path_empty_entry :
    create_path_items true ":/bin".toList
      = Outcome.ok (some (NUL :: "/bin".toList ++ [NUL], 6)) ∧
    path_iter (NUL :: "/bin".toList ++ [NUL]) 6 6 0
      = Outcome.ok [(0, []), (1, "/bin".toList)] ∧
    create_full_path 4096 (NUL :: "/bin".toList ++ [NUL]) 0 "ls".toList = none ∧
    create_full_path 4096 ('/' :: NUL :: "/bin".toList ++ [NUL]) 1 "ls".toList
      = some "ls".toList ∧
    create_full_path 4096 ('h' :: NUL :: "/bin".toList ++ [NUL]) 1 "ls".toList
      = some "/ls".toList ∧
    try_find 4096 (fun _ => true) "which".toList [] (NUL :: "/bin".toList ++ [NUL])
        "ls".toList (some 0) ":/bin".toList 6 false false false
      = Outcome.fault ∧
    try_find 4096 (fun _ => true) "which".toList [] ('/' :: NUL :: "/bin".toList ++ [NUL])
        "ls".toList (some 1) ":/bin".toList 6 false false false
      = Outcome.ok ⟨true, [Event.access "ls".toList, Event.stdout "ls\n".toList], "ls".toList⟩ ∧
    create_path_items true "/bin::".toList
      = Outcome.ok (some ("/bin".toList ++ [NUL, NUL, NUL], 7)) ∧
    path_iter ("/bin".toList ++ [NUL, NUL, NUL]) 7 7 0
      = Outcome.ok [(0, "/bin".toList), (5, []), (6, [])] ∧
    create_full_path 4096 ("/bin".toList ++ [NUL, NUL, NUL]) 5 "ls".toList
      = some "/ls".toList := by
  decide

/-- C15: the driver loop starts with both counters at zero; it returns for every
query list under the conditions of C6; and whenever it returns for a list
`pre ++ post`, it has returned for `pre` with `attempts` the number of queries
of `pre` and `errors` the number of those for which `try_find` returned false,
so `0 <= errors <= attempts` there; neither counter is larger there than at the
end; and every query of `post` has been handed to `try_find` too, whatever was
found before: at the end `attempts` is the length of the whole list. -/
theorem main_loop_counters (PATH_MAX : Nat) (fs : List Char → Bool) (argv0 : List Char)
    (stack : Nat → List Char) (heap_before s : List Char) (ta pn q : Bool)
    (pre post : List (List Char)) :
    (∀ (mem original_path : List Char) (items : Option Nat) (size : Nat),
      main_loop PATH_MAX fs argv0 stack mem items original_path size ta pn q [] 0 0 0
        = Outcome.ok ⟨0, 0, [], []⟩) ∧
    (NUL ∉ s → (∀ arg ∈ pre ++ post, NUL ∉ arg) →
      (heap_before = [] → ∃ c t, s = c :: t ∧ c ≠ ':') →
      (∀ arg ∈ pre ++ post, '/' ∈ arg → arg.length + 1 < PATH_MAX) →
      ∃ buf size t,
        create_path_items true s = Outcome.ok (some (buf, size)) ∧
        main_loop PATH_MAX fs argv0 stack (heap_before ++ buf) (some heap_before.length) s size
          ta pn q (pre ++ post) 0 0 0 = Outcome.ok t) ∧
    (∀ (mem original_path : List Char) (items : Option Nat) (size : Nat) (t : RunResult),
      main_loop PATH_MAX fs argv0 stack mem items original_path size ta pn q (pre ++ post)
        0 0 0 = Outcome.ok t →
      ∃ t1 rs1 rs2,
        main_loop PATH_MAX fs argv0 stack mem items original_path size ta pn q pre 0 0 0
          = Outcome.ok t1 ∧
        List.Forall₂ (fun arg r => ∃ j, try_find PATH_MAX fs argv0 (stack j) mem arg items
          original_path size ta pn q = Outcome.ok r) pre rs1 ∧
        List.Forall₂ (fun arg r => ∃ j, try_find PATH_MAX fs argv0 (stack j) mem arg items
          original_path size ta pn q = Outcome.ok r) post rs2 ∧
        t1.attempts = pre.length ∧
        t1.errors = rs1.countP (fun r => !r.success) ∧
        0 ≤ t1.errors ∧ t1.errors ≤ t1.attempts ∧
        t1.errors ≤ t.errors ∧ t1.attempts ≤ t.attempts ∧
        t.attempts = (pre ++ post).length ∧
        t.errors = t1.errors + rs2.countP (fun r => !r.success)) := by
  refine ⟨fun _ _ _ _ => rfl, ?_, ?_⟩
  · intro hs hnul hheap hshort
    obtain ⟨t, ht⟩ := main_loop_returns PATH_MAX fs argv0 stack
      (heap_before ++ packed (fields s)) (some heap_before.length) s (s.length + 1) ta pn q
      (pre ++ post)
      (fun arg ha j => try_find_returns PATH_MAX fs argv0 (stack j) heap_before s arg s
        ta pn q hs (hnul arg ha) hheap (hshort arg ha)) 0 0 0
    exact ⟨_, _, t, create_path_items_spec s hs, ht⟩
  · intro mem original_path items size t h
    obtain ⟨t1, t2, h1, h2, h3, h4⟩ := main_loop_split _ _ _ _ _ _ _ _ _ _ _ _ _ _ _ _ _ h
    obtain ⟨rs1, f1, e1, a1, _, _⟩ := main_loop_spec _ _ _ _ _ _ _ _ _ _ _ _ _ _ _ _ h1
    obtain ⟨rs2, f2, e2, a2, _, _⟩ := main_loop_spec _ _ _ _ _ _ _ _ _ _ _ _ _ _ _ _ h2
    have hlen : pre.length = rs1.length := f1.length_eq
    have hle : rs1.countP (fun r => !r.success) ≤ rs1.length := List.countP_le_length _
    rw [Nat.zero_add] at e1 a1
    refine ⟨t1, rs1, rs2, h1, f1, f2, a1, e1, Nat.zero_le _, by omega, by omega, by omega, ?_,
      by omega⟩
    rw [h4, a2, a1, List.length_append]

theorem main_loop_counters_witness :
    NUL ∉ "/usr/bin:/bin".toList ∧
    (∀ arg ∈ ["zz".toList] ++ ["sh".toList, "/bin/ls".toList], NUL ∉ arg) ∧
    (∀ arg ∈ ["zz".toList] ++ ["sh".toList, "/bin/ls".toList],
      '/' ∈ arg → arg.length + 1 < 4096) ∧
    ∃ buf size t t1,
      create_path_items true "/usr/bin:/bin".toList = Outcome.ok (some (buf, size)) ∧
      main_loop 4096 (fun p => decide (p = "/bin/sh".toList)) "which".toList (fun _ => [])
        ([] ++ buf) (some ([] : List Char).length) "/usr/bin:/bin".toList size
        false false false (["zz".toList] ++ ["sh".toList, "/bin/ls".toList]) 0 0 0
        = Outcome.ok t ∧
      main_loop 4096 (fun p => decide (p = "/bin/sh".toList)) "which".toList (fun _ => [])
        ([] ++ buf) (some ([] : List Char).length) "/usr/bin:/bin".toList size
        false false false ["zz".toList] 0 0 0 = Outcome.ok t1 ∧
      t1.attempts = ["zz".toList].length ∧ t1.errors ≤ t1.attempts ∧
      t1.errors ≤ t.errors ∧
      t.attempts = (["zz".toList] ++ ["sh".toList, "/bin/ls".toList]).length := by
  have T := main_loop_counters 4096 (fun p => decide (p = "/bin/sh".toList)) "which".toList
    (fun _ => []) [] "/usr/bin:/bin".toList false false false ["zz".toList]
    ["sh".toList, "/bin/ls".toList]
  obtain ⟨buf, size, t, hcp, ht⟩ := T.2.1 (by decide) (by decide)
    (fun _ => ⟨'/', "usr/bin:/bin".toList, rfl, by decide⟩) (by decide)
  obtain ⟨t1, rs1, rs2, h1, _, _, ha, _, _, hle, hmono, _, hall, _⟩ := T.2.2 _ _ _ _ t ht
  exact ⟨by decide, by decide, by decide, buf, size, t, t1, hcp, ht, h1, ha, hle, hmono, hall⟩

/-- C16, as stated, fails: after the call for the query `/bin/ls` the bytes of
the query are `/bin`, NUL, `ls`: the last `'/'` has been overwritten and the
query now reads as the string `/bin`. -/
theorem try_find_overwrites_slash_query :
    try_find 4096 (fun _ => true) "which".toList (List.replicate 4096 'x')
        ("/usr/bin".toList ++ NUL :: "/bin".toList ++ [NUL]) "/bin/ls".toList (some 0)
        "/usr/bin:/bin".toList 14 false false true
      = Outcome.ok ⟨true, [Event.access "/bin/ls".toList], "/bin".toList ++ NUL :: "ls".toList⟩ ∧
    "/bin".toList ++ NUL :: "ls".toList ≠ "/bin/ls".toList ∧
    cstr (("/bin".toList ++ NUL :: "ls".toList) ++ [NUL]) 0 = some "/bin".toList := by
  refine ⟨?_, by decide, by decide⟩
  rw [try_find_slash 4096 _ _ _ _ "/bin/ls".toList _
    "/bin".toList "ls".toList _ _ _ _ _ (by decide) (by decide) (by decide) (by decide)]
  decide

/-- C16, amended: `try_find` returns (under the conditions of C7), and whenever
it returns, a query without `'/'` has the contents it had before the call, and
a query with a `'/'` has its last `'/'` replaced by NUL and is otherwise as
before: it differs from the query given and reads as the part before that
`'/'`. -/
theorem try_find_query_after (PATH_MAX : Nat) (fs : List Char → Bool)
    (argv0 stack heap_before s name : List Char) (ta pn q : Bool) :
    (NUL ∉ s → NUL ∉ name →
      (heap_before = [] → ∃ c t, s = c :: t ∧ c ≠ ':') →
      ('/' ∈ name → name.length + 1 < PATH_MAX) →
      ∃ buf size r,
        create_path_items true s = Outcome.ok (some (buf, size)) ∧
        try_find PATH_MAX fs argv0 stack (heap_before ++ buf) name (some heap_before.length)
          s size ta pn q = Outcome.ok r) ∧
    (∀ (mem original_path : List Char) (items : Option Nat) (path_size : Nat) (r : FindResult),
      try_find PATH_MAX fs argv0 stack mem name items original_path path_size ta pn q
        = Outcome.ok r →
      ('/' ∉ name → r.name_after = name) ∧
      (∀ dir base, name = dir ++ '/' :: base → '/' ∉ base →
        r.name_after = dir ++ NUL :: base ∧ r.name_after ≠ name ∧
        (NUL ∉ dir → cstr (r.name_after ++ [NUL]) 0 = some dir))) := by
  constructor
  · intro hs h0 hheap hshort
    obtain ⟨r, hr⟩ := try_find_returns PATH_MAX fs argv0 stack heap_before s name s ta pn q
      hs h0 hheap hshort
    exact ⟨_, _, r, create_path_items_spec s hs, hr⟩
  · intro mem original_path items path_size r h
    obtain ⟨h1, h2⟩ := try_find_name_after _ _ _ _ _ _ _ _ _ _ _ _ r h
    refine ⟨h1, ?_⟩
    intro dir base hname hbase
    have h3 := h2 dir base hname hbase
    refine ⟨h3, ?_, ?_⟩
    · rw [h3, hname]
      intro e
      have e1 := List.append_cancel_left e
      simp only [List.cons.injEq, and_true] at e1
      exact NUL_ne_slash e1
    · intro hdir
      rw [h3]
      have := cstr_at [] dir (base ++ [NUL]) hdir
      simpa using this

theorem try_find_query_after_witness :
    NUL ∉ "/usr/bin:/bin".toList ∧ NUL ∉ "/bin/ls".toList ∧
    ('/' ∈ "/bin/ls".toList → "/bin/ls".toList.length + 1 < 4096) ∧
    "/bin/ls".toList = "/bin".toList ++ '/' :: "ls".toList ∧ '/' ∉ "ls".toList ∧
    NUL ∉ "/bin".toList ∧
    ∃ buf size r,
      create_path_items true "/usr/bin:/bin".toList = Outcome.ok (some (buf, size)) ∧
      try_find 4096 (fun _ => true) "which".toList [] ([] ++ buf) "/bin/ls".toList
        (some ([] : List Char).length) "/usr/bin:/bin".toList size false false false
        = Outcome.ok r ∧
      r.name_after = "/bin".toList ++ NUL :: "ls".toList ∧ r.name_after ≠ "/bin/ls".toList ∧
      cstr (r.name_after ++ [NUL]) 0 = some "/bin".toList := by
  have T := try_find_query_after 4096 (fun _ => true) "which".toList [] []
    "/usr/bin:/bin".toList "/bin/ls".toList false false false
  obtain ⟨buf, size, r, hcp, hr⟩ := T.1 (by decide) (by decide)
    (fun _ => ⟨'/', "usr/bin:/bin".toList, rfl, by decide⟩) (fun _ => by decide)
  obtain ⟨h1, h2, h3⟩ := (T.2 _ _ _ _ r hr).2 "/bin".toList "ls".toList (by decide) (by decide)
  exact ⟨by decide, by decide, fun _ => by decide, by decide, by decide, by decide,
    buf, size, r, hcp, hr, h1, h2, h3 (by decide)⟩

/-- C17: two calls of `try_find` that differ only in `try_all`, `prefix_name`
and `quiet` and that both return, return the same found value; for a non-empty
query list with the path buffer allocated `main` ends with an exit status under
either setting of the flags (conditions of C6); and two runs of `main` that
differ only in the flags and that both end, end with the same exit status. -/
theorem flags_keep_found (PATH_MAX : Nat) (fs : List Char → Bool) (argv0 : List Char)
    (stack : Nat → List Char) (getenv_PATH : Option (List Char)) (heap_before : List Char)
    (ta pn q ta1 pn1 q1 : Bool) (args : List (List Char)) :
    (∀ (stk mem name original_path : List Char) (items : Option Nat) (path_size : Nat)
        (r r1 : FindResult),
      try_find PATH_MAX fs argv0 stk mem name items original_path path_size ta pn q
        = Outcome.ok r →
      try_find PATH_MAX fs argv0 stk mem name items original_path path_size ta1 pn1 q1
        = Outcome.ok r1 →
      r.success = r1.success) ∧
    (args ≠ [] → NUL ∉ search_path_string getenv_PATH → (∀ arg ∈ args, NUL ∉ arg) →
      (heap_before = [] → ∃ c t, search_path_string getenv_PATH = c :: t ∧ c ≠ ':') →
      (∀ arg ∈ args, '/' ∈ arg → arg.length + 1 < PATH_MAX) →
      ∃ status ev ev1,
        main_resolve PATH_MAX fs argv0 stack getenv_PATH true heap_before ta pn q args
          = Outcome.ok (status, ev) ∧
        main_resolve PATH_MAX fs argv0 stack getenv_PATH true heap_before ta1 pn1 q1 args
          = Outcome.ok (status, ev1)) ∧
    (∀ (malloc_ok : Bool) (status status1 : Nat) (ev ev1 : List Event),
      main_resolve PATH_MAX fs argv0 stack getenv_PATH malloc_ok heap_before ta pn q args
        = Outcome.ok (status, ev) →
      main_resolve PATH_MAX fs argv0 stack getenv_PATH malloc_ok heap_before ta1 pn1 q1 args
        = Outcome.ok (status1, ev1) →
      status = status1) := by
  refine ⟨?_, ?_, ?_⟩
  · intro stk mem name original_path items path_size r r1 h h1
    exact try_find_flags _ _ _ _ _ _ _ _ _ _ _ _ _ _ _ _ _ h h1
  · intro hargs hpath hnul hheap hshort
    obtain ⟨status, ev, h⟩ := main_resolve_returns PATH_MAX fs argv0 stack getenv_PATH
      heap_before ta pn q args hargs hpath hnul hheap hshort
    obtain ⟨status1, ev1, h1⟩ := main_resolve_returns PATH_MAX fs argv0 stack getenv_PATH
      heap_before ta1 pn1 q1 args hargs hpath hnul hheap hshort
    have hs := main_resolve_flags _ _ _ _ _ _ _ _ _ _ _ _ _ _ _ _ _ _ h h1
    rw [← hs] at h1
    exact ⟨status, ev, ev1, h, h1⟩
  · intro malloc_ok status status1 ev ev1 h h1
    exact main_resolve_flags _ _ _ _ _ _ _ _ _ _ _ _ _ _ _ _ _ _ h h1

theorem flags_keep_found_witness :
    ["sh".toList, "zz".toList] ≠ [] ∧ NUL ∉ search_path_string none ∧
    (∀ arg ∈ ["sh".toList, "zz".toList], NUL ∉ arg) ∧
    (∀ arg ∈ ["sh".toList, "zz".toList], '/' ∈ arg → arg.length + 1 < 4096) ∧
    ∃ status ev ev1,
      main_resolve 4096 (fun p => decide (p = "/bin/sh".toList)) "which".toList (fun _ => [])
        none true [] false false false ["sh".toList, "zz".toList] = Outcome.ok (status, ev) ∧
      main_resolve 4096 (fun p => decide (p = "/bin/sh".toList)) "which".toList (fun _ => [])
        none true [] true true true ["sh".toList, "zz".toList] = Outcome.ok (status, ev1) :=
  ⟨by decide, by decide, by decide, by decide,
    (flags_keep_found 4096 (fun p => decide (p = "/bin/sh".toList)) "which".toList
      (fun _ => []) none [] false false false true true true ["sh".toList, "zz".toList]).2.1
      (by decide) (by decide) (by decide)
      (fun _ => ⟨'/', "usr/bin:/bin".toList, rfl, by decide⟩) (by decide)⟩

/-- C18: whatever `create_full_path` builds for a directory entry `d` and a name
`n` is the first `min(len, PATH_MAX - 1)` characters of the join of `d`, the
separator (none or one `'/'`; for a non-empty `d`, none iff `d` ends in `'/'`)
and `n`, `len` being the length of that join: the whole join when
`len < PATH_MAX`, and when `len >= PATH_MAX` a prefix of it of length
`PATH_MAX - 1` that is not the join. For a non-empty `d` the call always
builds one. For a search path of the one directory `d` and a name without
`'/'`, this is the one path `try_find` tests, and the one it prints when it is
executable and quiet is off. -/
theorem create_full_path_truncates (PATH_MAX : Nat) (fs : List Char → Bool)
    (argv0 stack heap_before mem d n : List Char) (dir : Nat) (ta pn q : Bool)
    (hmax : 0 < PATH_MAX) :
    (∀ c, create_full_path PATH_MAX mem dir n = some c →
      ∃ e slash, cstr mem dir = some e ∧ (slash = [] ∨ slash = ['/']) ∧
        (∀ hne : e ≠ [], slash = if e.getLast hne = '/' then [] else ['/']) ∧
        c = (e ++ slash ++ n).take (min (e ++ slash ++ n).length (PATH_MAX - 1)) ∧
        ((e ++ slash ++ n).length < PATH_MAX → c = e ++ slash ++ n) ∧
        (PATH_MAX ≤ (e ++ slash ++ n).length →
          c <+: e ++ slash ++ n ∧ c.length = PATH_MAX - 1 ∧ c ≠ e ++ slash ++ n)) ∧
    (∀ hne : d ≠ [], cstr mem dir = some d →
      create_full_path PATH_MAX mem dir n
        = some ((d ++ (if d.getLast hne = '/' then [] else ['/']) ++ n).take (PATH_MAX - 1))) ∧
    (∀ hne : d ≠ [], NUL ∉ d → ':' ∉ d → '/' ∉ n →
      ∃ buf size r,
        create_path_items true d = Outcome.ok (some (buf, size)) ∧
        try_find PATH_MAX fs argv0 stack (heap_before ++ buf) n (some heap_before.length)
          d size ta pn q = Outcome.ok r ∧
        tested r.events
          = [(d ++ (if d.getLast hne = '/' then [] else ['/']) ++ n).take (PATH_MAX - 1)] ∧
        printed r.events
          = if fs ((d ++ (if d.getLast hne = '/' then [] else ['/']) ++ n).take (PATH_MAX - 1))
              && !q
            then [report_line pn n
              ((d ++ (if d.getLast hne = '/' then [] else ['/']) ++ n).take (PATH_MAX - 1))]
            else []) := by
  refine ⟨?_, ?_, ?_⟩
  · intro c h
    unfold create_full_path at h
    cases he : cstr mem dir with
    | none =>
      rw [he] at h
      cases h
    | some e =>
      rw [he] at h
      simp only [] at h
      by_cases hz : dir + e.length = 0
      · rw [if_pos hz] at h
        cases h
      · rw [if_neg hz] at h
        cases hb : mem.get? (dir + e.length - 1) with
        | none =>
          rw [hb] at h
          cases h
        | some b =>
          rw [hb] at h
          simp only [Option.some.injEq] at h
          refine ⟨e, if b = '/' then [] else ['/'], rfl, ?_, ?_, ?_, ?_, ?_⟩
          · by_cases hb1 : b = '/'
            · left
              rw [if_pos hb1]
            · right
              rw [if_neg hb1]
          · intro hne
            have hlast := get_last_of_cstr mem e dir he hne
            rw [hb] at hlast
            simp only [Option.some.injEq] at hlast
            rw [hlast]
          · rw [← h]
            exact take_min_length _ _
          · intro hlen
            rw [← h]
            exact List.take_of_length_le (by omega)
          · intro hlen
            rw [← h]
            refine ⟨List.take_prefix _ _, ?_, ?_⟩
            · rw [List.length_take]
              omega
            · intro e1
              have := congrArg List.length e1
              rw [List.length_take] at this
              omega
  · intro hne hd
    exact create_full_path_nonempty PATH_MAX mem d n dir hd hne
  · intro hne hd hcolon hn
    have hfields : fields d = [d] := fields_no_colon d hcolon
    have hstr : cstr (heap_before ++ packed (fields d)) heap_before.length = some d := by
      rw [hfields]
      simpa [packed] using cstr_at heap_before d [] hd
    have hcand : candidates PATH_MAX (heap_before ++ packed (fields d)) n
        (located heap_before.length (fields d))
        = some [(d ++ (if d.getLast hne = '/' then [] else ['/']) ++ n).take (PATH_MAX - 1)] := by
      have hc := create_full_path_nonempty PATH_MAX _ d n heap_before.length hstr hne
      rw [hfields] at hc ⊢
      simp only [located, candidates, hc]
    obtain ⟨r, hr, _, _, htested, hprinted, _⟩ :=
      try_find_search PATH_MAX fs argv0 stack heap_before d n d ta pn q _ hd hn hcand
    refine ⟨_, _, r, create_path_items_spec d hd, hr, ?_, ?_⟩
    · rw [htested, scan_events_cons, tested_append, try_print_tested]
      split <;> simp [scan, LoopExit.events, tested]
    · rw [hprinted, scan_events_cons, printed_append, try_print_printed]
      split <;> simp [scan, LoopExit.events, printed]

theorem create_full_path_truncates_witness :
    0 < 4096 ∧
    create_full_path 4096 ("/usr/bin".toList ++ [NUL]) 0 "ls".toList
      = some "/usr/bin/ls".toList ∧
    ∃ e slash, cstr ("/usr/bin".toList ++ [NUL]) 0 = some e ∧ (slash = [] ∨ slash = ['/']) ∧
      (∀ hne : e ≠ [], slash = if e.getLast hne = '/' then [] else ['/']) ∧
      "/usr/bin/ls".toList = (e ++ slash ++ "ls".toList).take
        (min (e ++ slash ++ "ls".toList).length (4096 - 1)) ∧
      ((e ++ slash ++ "ls".toList).length < 4096 →
        "/usr/bin/ls".toList = e ++ slash ++ "ls".toList) ∧
      (4096 ≤ (e ++ slash ++ "ls".toList).length →
        "/usr/bin/ls".toList <+: e ++ slash ++ "ls".toList ∧
        "/usr/bin/ls".toList.length = 4096 - 1 ∧
        "/usr/bin/ls".toList ≠ e ++ slash ++ "ls".toList) :=
  ⟨by decide, by decide,
    (create_full_path_truncates 4096 (fun _ => true) [] [] [] ("/usr/bin".toList ++ [NUL])
      "/usr/bin".toList "ls".toList 0 false false false (by decide)).1 "/usr/bin/ls".toList
      (by decide)⟩

end Which
